import Mathlib

/-!
Verification development for the FamilySearch→GEDCOM conversion core
(`gedcom-converter.ts`).  JavaScript strings are modelled as `List Char`
for the URL transforms and as Lean `String` elsewhere; JS `Map`/`Set`
(insertion-ordered) are modelled as association lists / duplicate-free
lists kept in insertion order.
-/

namespace FsGedcom

/-! ## String primitives (models of JS `String.prototype` methods) -/

/-- `startsWithL s pat`: `pat` is a prefix of `s` (char-by-char comparison). -/
def startsWithL : List Char → List Char → Bool
  | _, [] => true
  | [], _ :: _ => false
  | c :: cs, p :: ps => c == p && startsWithL cs ps

/-- Model of JS `s.includes(pat)`: `pat` occurs contiguously in `s`. -/
def includesL : List Char → List Char → Bool
  | [], pat => startsWithL [] pat
  | c :: cs, pat => startsWithL (c :: cs) pat || includesL cs pat

/-- Characters allowed inside the regex classes `[^/?]`. -/
def notSlashQ (c : Char) : Bool := !(c == '/') && !(c == '?')

/-! ## Lemmas about `startsWithL` / `includesL` -/

theorem startsWithL_nil_right (s : List Char) : startsWithL s [] = true := by
  cases s <;> rfl

theorem startsWithL_mem {s pat : List Char} (h : startsWithL s pat = true) :
    ∀ x ∈ pat, x ∈ s := by
  induction pat generalizing s with
  | nil => intro x hx; cases hx
  | cons p ps ih =>
    cases s with
    | nil => simp [startsWithL] at h
    | cons c cs =>
      simp only [startsWithL, Bool.and_eq_true, beq_iff_eq] at h
      intro x hx
      rcases List.mem_cons.mp hx with h1 | h2
      · subst h1; exact h.1 ▸ List.mem_cons_self _ _
      · exact List.mem_cons_of_mem _ (ih h.2 x h2)

theorem startsWithL_append_self (p t : List Char) :
    startsWithL (p ++ t) p = true := by
  induction p with
  | nil => exact startsWithL_nil_right t
  | cons c cs ih => simp [startsWithL, ih]

theorem startsWithL_extend {s pat : List Char} (t : List Char)
    (h : startsWithL s pat = true) : startsWithL (s ++ t) pat = true := by
  induction pat generalizing s with
  | nil => exact startsWithL_nil_right _
  | cons p ps ih =>
    cases s with
    | nil => simp [startsWithL] at h
    | cons c cs =>
      simp only [startsWithL, Bool.and_eq_true] at h ⊢
      exact ⟨h.1, ih h.2⟩

theorem startsWithL_split {s t pat : List Char}
    (h : startsWithL (s ++ t) pat = true) :
    startsWithL s pat = true ∨
      ∃ p₂, pat = s ++ p₂ ∧ p₂ ≠ [] ∧ startsWithL t p₂ = true := by
  induction s generalizing pat with
  | nil =>
    cases pat with
    | nil => exact Or.inl rfl
    | cons q qs => exact Or.inr ⟨q :: qs, rfl, List.cons_ne_nil _ _, h⟩
  | cons c cs ih =>
    cases pat with
    | nil => exact Or.inl (startsWithL_nil_right _)
    | cons q qs =>
      simp only [List.cons_append, startsWithL, Bool.and_eq_true, beq_iff_eq] at h
      rcases ih h.2 with h1 | ⟨p₂, hp, hne, hsw⟩
      · exact Or.inl (by simp [startsWithL, h.1, h1])
      · refine Or.inr ⟨p₂, ?_, hne, hsw⟩
        simp [hp, h.1]

theorem startsWithL_decompose {s pat : List Char}
    (h : startsWithL s pat = true) : s = pat ++ s.drop pat.length := by
  induction pat generalizing s with
  | nil => simp
  | cons p ps ih =>
    cases s with
    | nil => simp [startsWithL] at h
    | cons c cs =>
      simp only [startsWithL, Bool.and_eq_true, beq_iff_eq] at h
      have := ih h.2
      simp [h.1, List.drop_succ_cons]
      exact this

theorem includesL_nil_pat (s : List Char) : includesL s [] = true := by
  cases s with
  | nil => rfl
  | cons c cs => simp [includesL, startsWithL_nil_right]

theorem includesL_mem {s pat : List Char} (h : includesL s pat = true) :
    ∀ x ∈ pat, x ∈ s := by
  induction s with
  | nil =>
    cases pat with
    | nil => intro x hx; cases hx
    | cons p ps => simp [includesL, startsWithL] at h
  | cons c cs ih =>
    simp only [includesL, Bool.or_eq_true] at h
    intro x hx
    rcases h with h | h
    · exact startsWithL_mem h x hx
    · exact List.mem_cons_of_mem _ (ih h x hx)

theorem includesL_cons_of (c : Char) {s pat : List Char}
    (h : includesL s pat = true) : includesL (c :: s) pat = true := by
  simp [includesL, h]

theorem includesL_of_startsWithL {s pat : List Char}
    (h : startsWithL s pat = true) : includesL s pat = true := by
  cases s with
  | nil => cases pat with
    | nil => rfl
    | cons p ps => simp [startsWithL] at h
  | cons x xs => simp [includesL, h]

theorem includesL_append_left {s pat : List Char} (t : List Char)
    (h : includesL s pat = true) : includesL (s ++ t) pat = true := by
  induction s with
  | nil =>
    cases pat with
    | nil => exact includesL_nil_pat _
    | cons p ps => simp [includesL, startsWithL] at h
  | cons c cs ih =>
    simp only [includesL, Bool.or_eq_true] at h
    rcases h with h | h
    · exact includesL_of_startsWithL (by simpa using startsWithL_extend t h)
    · exact includesL_cons_of _ (ih h)

theorem includesL_append_right (s : List Char) {t pat : List Char}
    (h : includesL t pat = true) : includesL (s ++ t) pat = true := by
  induction s with
  | nil => simpa using h
  | cons c cs ih => exact includesL_cons_of _ ih

/-- A pattern occurs in any string that contains it contiguously. -/
theorem includesL_of_mid (x y pat : List Char) :
    includesL (x ++ pat ++ y) pat = true := by
  rw [List.append_assoc]
  exact includesL_append_right x (includesL_of_startsWithL (startsWithL_append_self _ _))

theorem getLast?_mem_own {l : List Char} {c : Char} (h : l.getLast? = some c) :
    c ∈ l := by
  induction l with
  | nil => simp at h
  | cons x xs ih =>
    cases xs with
    | nil => simp [List.getLast?] at h; simp [h]
    | cons y ys =>
      rw [List.getLast?_cons_cons] at h
      exact List.mem_cons_of_mem _ (ih h)

theorem getLast?_append_own {l₁ l₂ : List Char} (h : l₂ ≠ []) :
    (l₁ ++ l₂).getLast? = l₂.getLast? := by
  induction l₁ with
  | nil => simp
  | cons x xs ih =>
    cases hx : xs ++ l₂ with
    | nil =>
      exfalso
      rcases List.append_eq_nil.mp hx with ⟨_, h2⟩
      exact h h2
    | cons y ys =>
      rw [List.cons_append, hx, List.getLast?_cons_cons, ← hx, ih]

/-- An occurrence of a pattern avoiding a separator character lies wholly on
one side of that separator. -/
theorem includesL_split_char {a b pat : List Char} {c₀ : Char}
    (h : includesL (a ++ c₀ :: b) pat = true) (hc : ∀ x ∈ pat, x ≠ c₀) :
    includesL a pat = true ∨ includesL b pat = true := by
  induction a with
  | nil =>
    simp only [List.nil_append, includesL, Bool.or_eq_true] at h
    rcases h with h | h
    · cases pat with
      | nil => exact Or.inl rfl
      | cons p ps =>
        simp only [startsWithL, Bool.and_eq_true, beq_iff_eq] at h
        exact absurd h.1.symm (hc p (List.mem_cons_self _ _))
    · exact Or.inr h
  | cons x a' ih =>
    simp only [List.cons_append, includesL, Bool.or_eq_true] at h
    rcases h with h | h
    · rcases @startsWithL_split (x :: a') (c₀ :: b) _ (by simpa using h) with
        h1 | ⟨p₂, hp, hne, hsw⟩
      · exact Or.inl (includesL_of_startsWithL h1)
      · exfalso
        cases p₂ with
        | nil => exact hne rfl
        | cons q qs =>
          simp only [startsWithL, Bool.and_eq_true, beq_iff_eq] at hsw
          exact hc q (hp ▸ List.mem_append_right _ (List.mem_cons_self _ _)) hsw.1.symm
    · rcases ih h with h1 | h1
      · exact Or.inl (includesL_cons_of _ h1)
      · exact Or.inr h1

/-- An occurrence of a pattern ending in a character absent from the suffix
`t` lies wholly in the prefix `s`. -/
theorem includesL_of_append_last {s t pat : List Char} {c : Char}
    (h : includesL (s ++ t) pat = true) (hlast : pat.getLast? = some c)
    (ht : ∀ x ∈ t, x ≠ c) : includesL s pat = true := by
  induction s with
  | nil =>
    exfalso
    have hcp : c ∈ pat := getLast?_mem_own hlast
    have : c ∈ t := includesL_mem (by simpa using h) c hcp
    exact ht c this rfl
  | cons x s' ih =>
    simp only [List.cons_append, includesL, Bool.or_eq_true] at h
    rcases h with h | h
    · rcases @startsWithL_split (x :: s') t _ (by simpa using h) with
        h1 | ⟨p₂, hp, hne, hsw⟩
      · exact includesL_of_startsWithL h1
      · exfalso
        have hlast2 : p₂.getLast? = some c := by
          have he : ((x :: s') ++ p₂).getLast? = p₂.getLast? :=
            getLast?_append_own hne
          rw [← he]
          rw [hp] at hlast
          exact hlast
        have hcp : c ∈ p₂ := getLast?_mem_own hlast2
        exact ht c (startsWithL_mem hsw c hcp) rfl
    · exact includesL_cons_of _ (ih h)

/-! ## takeWhile helpers -/

theorem takeWhile_all {q : Char → Bool} {l : List Char}
    (h : ∀ x ∈ l, q x = true) : l.takeWhile q = l := by
  induction l with
  | nil => rfl
  | cons c cs ih =>
    simp [List.takeWhile, h c (List.mem_cons_self _ _),
      ih (fun x hx => h x (List.mem_cons_of_mem _ hx))]

theorem takeWhile_append_stop {q : Char → Bool} {l₁ l₂ : List Char} {c : Char}
    (h1 : ∀ x ∈ l₁, q x = true) (hc : q c = false) :
    (l₁ ++ c :: l₂).takeWhile q = l₁ := by
  induction l₁ with
  | nil => simp [List.takeWhile, hc]
  | cons d ds ih =>
    simp [List.takeWhile, h1 d (List.mem_cons_self _ _),
      ih (fun x hx => h1 x (List.mem_cons_of_mem _ hx))]

/-! ## URL transforms (from `transformFamilySearchUrl` / `transformSourceUrl`) -/

def platformTreePersons : List Char := "/platform/tree/persons/".data
def personsSlash : List Char := "persons/".data
def treePersonPath : List Char := "/tree/person/".data
def platformSeg : List Char := "/platform/".data
def arkColon : List Char := ['a', 'r', 'k', ':']
def arkHead : List Char := ['a', 'r', 'k', ':', '/']
def prodBase : List Char := "https://www.familysearch.org".data
def integBase : List Char := "https://integration.familysearch.org".data
def betaBase : List Char := "https://beta.familysearch.org".data
def integTrig1 : List Char := "integration.familysearch.org".data
def integTrig2 : List Char := "api-integ.familysearch.org".data
def betaTrig1 : List Char := "beta.familysearch.org".data
def betaTrig2 : List Char := "apibeta.familysearch.org".data

/-- First match of the regex `persons\/([^/?]+)` (capture group 1):
leftmost position where `persons/` is followed by a non-empty run of
characters other than `/` and `?`. -/
def findPersonsId : List Char → Option (List Char)
  | [] => none
  | c :: cs =>
    if startsWithL (c :: cs) personsSlash then
      if ((List.drop 8 (c :: cs)).takeWhile notSlashQ).isEmpty then findPersonsId cs
      else some ((List.drop 8 (c :: cs)).takeWhile notSlashQ)
    else findPersonsId cs

/-- First match of the regex `ark:\/[^/?]+\/[^/?]+` (whole match). -/
def findArk : List Char → Option (List Char)
  | [] => none
  | c :: cs =>
    if startsWithL (c :: cs) arkHead then
      if ((List.drop 5 (c :: cs)).takeWhile notSlashQ).isEmpty then findArk cs
      else
        match (List.drop 5 (c :: cs)).drop
            ((List.drop 5 (c :: cs)).takeWhile notSlashQ).length with
        | [] => findArk cs
        | c2 :: t3 =>
          if c2 = '/' then
            if (t3.takeWhile notSlashQ).isEmpty then findArk cs
            else some (arkHead ++ (List.drop 5 (c :: cs)).takeWhile notSlashQ ++
              '/' :: t3.takeWhile notSlashQ)
          else findArk cs
    else findArk cs

/-- Environment detection shared by both transforms (identical code in each). -/
def detectBase (url : List Char) : List Char :=
  if includesL url integTrig1 || includesL url integTrig2 then integBase
  else if includesL url betaTrig1 || includesL url betaTrig2 then betaBase
  else prodBase

/-- Model of `transformFamilySearchUrl`. -/
def transformFamilySearchUrl (url : List Char) : List Char :=
  if !(includesL url platformTreePersons) then url
  else
    match findPersonsId url with
    | none => url
    | some personId => detectBase url ++ treePersonPath ++ personId

/-- Model of `transformSourceUrl`. -/
def transformSourceUrl (url : List Char) : List Char :=
  if url.isEmpty then url
  else if !(includesL url platformSeg) && includesL url arkColon then url
  else
    match findArk url with
    | none => url
    | some arkId => detectBase url ++ '/' :: arkId

/-! ## Properties of the regex-match models -/

theorem findPersonsId_spec {u pid : List Char} (h : findPersonsId u = some pid) :
    pid ≠ [] ∧ ∀ c ∈ pid, notSlashQ c = true := by
  induction u with
  | nil => simp [findPersonsId] at h
  | cons c cs ih =>
    rw [findPersonsId] at h
    split at h
    · split at h
      · exact ih h
      · rename_i hrun
        injection h with h'
        subst h'
        refine ⟨?_, fun x hx => List.mem_takeWhile_imp hx⟩
        intro hnil
        rw [hnil] at hrun
        simp at hrun
    · exact ih h

theorem isEmpty_false_of_ne_nil {l : List Char} (h : l ≠ []) : l.isEmpty = false := by
  cases l with
  | nil => exact absurd rfl h
  | cons c cs => rfl

theorem drop_takeWhile_length (q : Char → Bool) (l : List Char) :
    List.drop (l.takeWhile q).length l = l.dropWhile q := by
  induction l with
  | nil => rfl
  | cons c cs ih =>
    by_cases hq : q c
    · simp [List.takeWhile_cons, List.dropWhile_cons, hq, ih]
    · simp [List.takeWhile_cons, List.dropWhile_cons, hq]

theorem findArk_decomp {u a : List Char} (h : findArk u = some a) :
    ∃ x r1 r2 y, u = x ++ (arkHead ++ r1 ++ '/' :: r2) ++ y ∧
      a = arkHead ++ r1 ++ '/' :: r2 ∧ r1 ≠ [] ∧ r2 ≠ [] ∧
      (∀ c ∈ r1, notSlashQ c = true) ∧ (∀ c ∈ r2, notSlashQ c = true) := by
  induction u with
  | nil => simp [findArk] at h
  | cons c cs ih =>
    rw [findArk] at h
    split at h
    · rename_i hsw
      split at h
      · -- run1 empty: regex engine advances one position
        rcases ih h with ⟨x, r1, r2, y, hu, rest⟩
        exact ⟨c :: x, r1, r2, y, by simp [hu], rest⟩
      · rename_i hrun1
        split at h
        · rcases ih h with ⟨x, r1, r2, y, hu, rest⟩
          exact ⟨c :: x, r1, r2, y, by simp [hu], rest⟩
        · rename_i c2 t3 hdrop
          split at h
          case isFalse =>
            rcases ih h with ⟨x, r1, r2, y, hu, rest⟩
            exact ⟨c :: x, r1, r2, y, by simp [hu], rest⟩
          case isTrue hc2 =>
            subst hc2
            split at h
            · rcases ih h with ⟨x, r1, r2, y, hu, rest⟩
              exact ⟨c :: x, r1, r2, y, by simp [hu], rest⟩
            · rename_i hrun2
              injection h with h'
              -- successful match at the current position
              have hdec : c :: cs = arkHead ++ List.drop 5 (c :: cs) := by
                have := startsWithL_decompose hsw
                simpa [arkHead] using this
              have htw : (List.drop 5 (c :: cs)).takeWhile notSlashQ ++
                  (List.drop 5 (c :: cs)).dropWhile notSlashQ =
                  List.drop 5 (c :: cs) :=
                List.takeWhile_append_dropWhile _ _
              have hdw : (List.drop 5 (c :: cs)).dropWhile notSlashQ = '/' :: t3 := by
                rw [← drop_takeWhile_length notSlashQ (List.drop 5 (c :: cs))]
                exact hdrop
              have ht_eq : List.drop 5 (c :: cs) =
                  (List.drop 5 (c :: cs)).takeWhile notSlashQ ++ '/' :: t3 := by
                rw [← hdw, htw]
              have ht3 : t3 = t3.takeWhile notSlashQ ++ t3.dropWhile notSlashQ :=
                (List.takeWhile_append_dropWhile _ _).symm
              refine ⟨[], (List.drop 5 (c :: cs)).takeWhile notSlashQ,
                t3.takeWhile notSlashQ, t3.dropWhile notSlashQ, ?_, h'.symm,
                ?_, ?_, ?_, ?_⟩
              · rw [List.nil_append]
                conv_lhs => rw [hdec, ht_eq]
                conv_lhs => rw [ht3]
                simp [List.append_assoc]
              · intro hnil; rw [hnil] at hrun1; simp at hrun1
              · intro hnil; rw [hnil] at hrun2; simp at hrun2
              · exact fun x hx => List.mem_takeWhile_imp hx
              · exact fun x hx => List.mem_takeWhile_imp hx
    · rcases ih h with ⟨x, r1, r2, y, hu, rest⟩
      exact ⟨c :: x, r1, r2, y, by simp [hu], rest⟩

/-- `findArk` applied to a canonical ark identifier finds exactly it. -/
theorem findArk_canonical {r1 r2 : List Char} (h1 : r1 ≠ []) (h2 : r2 ≠ [])
    (hok1 : ∀ c ∈ r1, notSlashQ c = true) (hok2 : ∀ c ∈ r2, notSlashQ c = true) :
    findArk (arkHead ++ r1 ++ '/' :: r2) = some (arkHead ++ r1 ++ '/' :: r2) := by
  have hshape : arkHead ++ r1 ++ '/' :: r2 =
      'a' :: ('r' :: 'k' :: ':' :: '/' :: (r1 ++ '/' :: r2)) := by
    simp [arkHead]
  rw [hshape, findArk]
  have hsw : startsWithL ('a' :: 'r' :: 'k' :: ':' :: '/' :: (r1 ++ '/' :: r2))
      arkHead = true := by
    have := startsWithL_append_self arkHead (r1 ++ '/' :: r2)
    simpa [arkHead] using this
  rw [if_pos hsw]
  have hdrop5 : List.drop 5 ('a' :: 'r' :: 'k' :: ':' :: '/' :: (r1 ++ '/' :: r2)) =
      r1 ++ '/' :: r2 := rfl
  simp only [hdrop5]
  have htw1 : (r1 ++ '/' :: r2).takeWhile notSlashQ = r1 :=
    takeWhile_append_stop hok1 (by decide)
  rw [htw1]
  rw [if_neg (by simp [isEmpty_false_of_ne_nil h1])]
  have hdrop : (r1 ++ '/' :: r2).drop r1.length = '/' :: r2 := List.drop_left _ _
  rw [hdrop]
  have htw2 : r2.takeWhile notSlashQ = r2 := takeWhile_all hok2
  simp only [htw2]
  simp [isEmpty_false_of_ne_nil h2, hshape]

/-- No suffix of `known` can begin a match of `ark:/`. -/
def noArkStart : List Char → Bool
  | [] => true
  | c :: cs =>
    (!(startsWithL (c :: cs) arkHead) &&
      !(decide ((c :: cs).length < 5) && startsWithL arkHead (c :: cs))) &&
    noArkStart cs

/-- Scanning for an ark match skips over a prefix with no possible start. -/
theorem findArk_skip {known : List Char} (h : noArkStart known = true)
    (rest : List Char) : findArk (known ++ rest) = findArk rest := by
  induction known with
  | nil => rfl
  | cons c cs ih =>
    simp only [noArkStart, Bool.and_eq_true, Bool.not_eq_true'] at h
    obtain ⟨⟨hsw1, hsw2⟩, htail⟩ := h
    rw [List.cons_append, findArk]
    have hswf : startsWithL (c :: (cs ++ rest)) arkHead = false := by
      by_contra hcon
      have hcon' : startsWithL ((c :: cs) ++ rest) arkHead = true := by
        simpa using Bool.of_not_eq_false hcon
      rcases startsWithL_split hcon' with h1 | ⟨p₂, hp, hne, _⟩
      · rw [h1] at hsw1; cases hsw1
      · have hlen5 : cs.length + p₂.length = 4 := by
          have h5 : arkHead.length = ((c :: cs) ++ p₂).length := by rw [hp]
          simpa [arkHead] using h5.symm
        have hpl : 1 ≤ p₂.length := by
          cases p₂ with
          | nil => exact absurd rfl hne
          | cons _ _ => simp
        have hswa : startsWithL arkHead (c :: cs) = true := by
          rw [hp]
          exact startsWithL_append_self _ _
        rw [hswa] at hsw2
        simp only [Bool.and_true, decide_eq_false_iff_not, not_lt,
          List.length_cons] at hsw2
        omega
    rw [if_neg (by simp [hswf])]
    exact ih htail

/-! ## Idempotence of the URL transforms -/

theorem includesL_mid_mono {m T : List Char} (x y : List Char)
    (h : includesL m T = true) : includesL (x ++ m ++ y) T = true := by
  rw [List.append_assoc]
  exact includesL_append_right x (includesL_append_left y h)

theorem isEmpty_append_cons (l r : List Char) (c : Char) :
    (l ++ c :: r).isEmpty = false := by cases l <;> rfl

theorem ne_slash_of_notSlashQ {x : Char} (h : notSlashQ x = true) : x ≠ '/' := by
  intro he
  rw [he] at h
  exact absurd h (by decide)

theorem detectBase_mem (u : List Char) :
    detectBase u = integBase ∨ detectBase u = betaBase ∨ detectBase u = prodBase := by
  rw [detectBase]
  split
  · exact Or.inl rfl
  · split
    · exact Or.inr (Or.inl rfl)
    · exact Or.inr (Or.inr rfl)

/-- A slash-free trigger occurring in `base ++ "/" ++ arkId` occurs in the
base, in the ark NAAN, or in the ark name. -/
theorem trigger_split {b r1 r2 T : List Char}
    (hT : ∀ ch ∈ T, ch ≠ '/')
    (hTark : includesL arkColon T = false)
    (h : includesL (b ++ '/' :: (arkHead ++ r1 ++ '/' :: r2)) T = true) :
    includesL b T = true ∨ includesL r1 T = true ∨ includesL r2 T = true := by
  rcases includesL_split_char h hT with hb | h2
  · exact Or.inl hb
  · have hshape : arkHead ++ r1 ++ '/' :: r2 =
        arkColon ++ '/' :: (r1 ++ '/' :: r2) := by
      simp [arkHead, arkColon]
    rw [hshape] at h2
    rcases includesL_split_char h2 hT with h3 | h4
    · rw [h3] at hTark; cases hTark
    · rcases includesL_split_char h4 hT with h5 | h6
      · exact Or.inr (Or.inl h5)
      · exact Or.inr (Or.inr h6)

/-- Rewriting a source URL never changes the detected environment. -/
theorem detectBase_stable {u arkId : List Char} (h : findArk u = some arkId) :
    detectBase (detectBase u ++ '/' :: arkId) = detectBase u := by
  obtain ⟨x, r1, r2, y, hu, hark, -, -, -, -⟩ := findArk_decomp h
  subst hark
  have hval : ∀ T : List Char, (∀ ch ∈ T, ch ≠ '/') →
      includesL arkColon T = false →
      ∀ b : List Char,
      includesL (b ++ '/' :: (arkHead ++ r1 ++ '/' :: r2)) T = true →
      includesL b T = true ∨ includesL u T = true := by
    intro T hT hTark b hinc
    rcases trigger_split hT hTark hinc with h1 | h2 | h3
    · exact Or.inl h1
    · refine Or.inr ?_
      have hu2 : u = (x ++ arkHead) ++ r1 ++ ('/' :: r2 ++ y) := by
        rw [hu]; simp [List.append_assoc]
      rw [hu2]; exact includesL_mid_mono _ _ h2
    · refine Or.inr ?_
      have hu2 : u = (x ++ arkHead ++ r1 ++ ['/']) ++ r2 ++ y := by
        rw [hu]; simp [List.append_assoc]
      rw [hu2]; exact includesL_mid_mono _ _ h3
  by_cases hI : (includesL u integTrig1 || includesL u integTrig2) = true
  · have hb : detectBase u = integBase := by rw [detectBase, if_pos hI]
    rw [hb]
    have hIn : includesL (integBase ++ '/' :: (arkHead ++ (r1 ++ '/' :: r2)))
        integTrig1 = true :=
      includesL_append_left _ (by decide)
    rw [detectBase, if_pos (by simp [hIn])]
  · by_cases hB : (includesL u betaTrig1 || includesL u betaTrig2) = true
    · have hb : detectBase u = betaBase := by
        rw [detectBase, if_neg hI, if_pos hB]
      rw [hb]
      have hI1f : includesL (betaBase ++ '/' :: (arkHead ++ (r1 ++ '/' :: r2)))
          integTrig1 = false := by
        cases hcon : includesL (betaBase ++ '/' :: (arkHead ++ (r1 ++ '/' :: r2)))
            integTrig1 with
        | false => rfl
        | true =>
          rcases hval integTrig1 (by decide) (by decide) betaBase
            (by simpa using hcon) with hc | hc
          · exact absurd hc (by decide)
          · exact absurd (by simp [hc] : (includesL u integTrig1 ||
              includesL u integTrig2) = true) hI
      have hI2f : includesL (betaBase ++ '/' :: (arkHead ++ (r1 ++ '/' :: r2)))
          integTrig2 = false := by
        cases hcon : includesL (betaBase ++ '/' :: (arkHead ++ (r1 ++ '/' :: r2)))
            integTrig2 with
        | false => rfl
        | true =>
          rcases hval integTrig2 (by decide) (by decide) betaBase
            (by simpa using hcon) with hc | hc
          · exact absurd hc (by decide)
          · exact absurd (by simp [hc] : (includesL u integTrig1 ||
              includesL u integTrig2) = true) hI
      have hBn : includesL (betaBase ++ '/' :: (arkHead ++ (r1 ++ '/' :: r2)))
          betaTrig1 = true :=
        includesL_append_left _ (by decide)
      rw [detectBase, if_neg (by simp [hI1f, hI2f]), if_pos (by simp [hBn])]
    · have hb : detectBase u = prodBase := by
        rw [detectBase, if_neg hI, if_neg hB]
      rw [hb]
      have hflat : ∀ T : List Char, (∀ ch ∈ T, ch ≠ '/') →
          includesL arkColon T = false → includesL prodBase T = false →
          includesL u T = false →
          includesL (prodBase ++ '/' :: (arkHead ++ (r1 ++ '/' :: r2))) T = false := by
        intro T hT hTark hpb huf
        cases hcon : includesL (prodBase ++ '/' :: (arkHead ++ (r1 ++ '/' :: r2))) T with
        | false => rfl
        | true =>
          rcases hval T hT hTark prodBase (by simpa using hcon) with hc | hc
          · rw [hc] at hpb; cases hpb
          · rw [hc] at huf; cases huf
      simp only [Bool.or_eq_true, not_or, Bool.not_eq_true] at hI hB
      rw [detectBase,
        if_neg (by simp [hflat integTrig1 (by decide) (by decide) (by decide) hI.1,
          hflat integTrig2 (by decide) (by decide) (by decide) hI.2]),
        if_neg (by simp [hflat betaTrig1 (by decide) (by decide) (by decide) hB.1,
          hflat betaTrig2 (by decide) (by decide) (by decide) hB.2])]

theorem transformFamilySearchUrl_idem (u : List Char) :
    transformFamilySearchUrl (transformFamilySearchUrl u) =
      transformFamilySearchUrl u := by
  cases h1 : includesL u platformTreePersons with
  | false =>
    have hu : transformFamilySearchUrl u = u := by
      rw [transformFamilySearchUrl, if_pos (by simp [h1])]
    rw [hu, hu]
  | true =>
    cases hf : findPersonsId u with
    | none =>
      have hu : transformFamilySearchUrl u = u := by
        simp [transformFamilySearchUrl, h1, hf]
      rw [hu, hu]
    | some pid =>
      have hu' : transformFamilySearchUrl u =
          detectBase u ++ treePersonPath ++ pid := by
        simp [transformFamilySearchUrl, h1, hf]
      obtain ⟨hpne, hpok⟩ := findPersonsId_spec hf
      have hnoP : includesL (detectBase u ++ (treePersonPath ++ pid))
          platformTreePersons = false := by
        cases hcon : includesL (detectBase u ++ (treePersonPath ++ pid))
            platformTreePersons with
        | false => rfl
        | true =>
          exfalso
          have hassoc : detectBase u ++ (treePersonPath ++ pid) =
              (detectBase u ++ treePersonPath) ++ pid :=
            (List.append_assoc _ _ _).symm
          rw [hassoc] at hcon
          have hin : includesL (detectBase u ++ treePersonPath)
              platformTreePersons = true :=
            includesL_of_append_last hcon (by decide)
              (fun x hx => ne_slash_of_notSlashQ (hpok x hx))
          rcases detectBase_mem u with hb | hb | hb <;> rw [hb] at hin <;>
            exact absurd hin (by decide)
      have hfix : transformFamilySearchUrl (detectBase u ++ treePersonPath ++ pid) =
          detectBase u ++ treePersonPath ++ pid := by
        rw [transformFamilySearchUrl, if_pos (by simp [hnoP])]
      rw [hu', hfix]

theorem transformSourceUrl_idem (u : List Char) :
    transformSourceUrl (transformSourceUrl u) = transformSourceUrl u := by
  cases hemp : u.isEmpty with
  | true =>
    have hu : transformSourceUrl u = u := by rw [transformSourceUrl, if_pos hemp]
    rw [hu, hu]
  | false =>
    cases hearly : (!(includesL u platformSeg) && includesL u arkColon) with
    | true =>
      have hu : transformSourceUrl u = u := by
        rw [transformSourceUrl, if_neg (by simp [hemp]), if_pos hearly]
      rw [hu, hu]
    | false =>
      cases hf : findArk u with
      | none =>
        have hu : transformSourceUrl u = u := by
          simp [transformSourceUrl, hemp, hearly, hf]
        rw [hu, hu]
      | some arkId =>
        have hu' : transformSourceUrl u = detectBase u ++ '/' :: arkId := by
          simp [transformSourceUrl, hemp, hearly, hf]
        obtain ⟨x, r1, r2, y, hudec, hark, hr1, hr2, hok1, hok2⟩ := findArk_decomp hf
        have hne : (detectBase u ++ '/' :: arkId).isEmpty = false :=
          isEmpty_append_cons _ _ _
        have harkInc : includesL (detectBase u ++ '/' :: arkId) arkColon = true := by
          rw [hark]
          have hsh : detectBase u ++ '/' :: (arkHead ++ r1 ++ '/' :: r2) =
              (detectBase u ++ ['/']) ++ arkColon ++ ('/' :: (r1 ++ '/' :: r2)) := by
            simp [arkHead, arkColon]
          rw [hsh]
          exact includesL_of_mid _ _ _
        cases hp : includesL (detectBase u ++ '/' :: arkId) platformSeg with
        | false =>
          have hfix : transformSourceUrl (detectBase u ++ '/' :: arkId) =
              detectBase u ++ '/' :: arkId := by
            rw [transformSourceUrl, if_neg (by simp [hne]),
              if_pos (by simp [hp, harkInc])]
          rw [hu', hfix]
        | true =>
          have hnoark : noArkStart (detectBase u ++ ['/']) = true := by
            rcases detectBase_mem u with hb | hb | hb <;> rw [hb] <;> decide
          have hfind : findArk (detectBase u ++ '/' :: arkId) = some arkId := by
            rw [hark]
            have hsh : detectBase u ++ '/' :: (arkHead ++ r1 ++ '/' :: r2) =
                (detectBase u ++ ['/']) ++ (arkHead ++ r1 ++ '/' :: r2) := by
              simp
            rw [hsh, findArk_skip hnoark]
            exact findArk_canonical hr1 hr2 hok1 hok2
          have hfix : transformSourceUrl (detectBase u ++ '/' :: arkId) =
              detectBase (detectBase u ++ '/' :: arkId) ++ '/' :: arkId := by
            rw [transformSourceUrl, if_neg (by simp [hne]),
              if_neg (by simp [hp]), hfind]
          rw [hu', hfix, detectBase_stable hf]

/-! ## Data model (from `src/types/index.ts` plus the converter's casts) -/

structure Href where
  href : Option String := none
deriving Repr

structure NamePart where
  type : Option String := none
  value : Option String := none
deriving Repr

structure NameForm where
  fullText : Option String := none
  parts : Option (List NamePart) := none
deriving Repr

structure PersonName where
  nameForms : Option (List NameForm) := none
deriving Repr

structure PersonDisplay where
  name : Option String := none
  gender : Option String := none
  birthDate : Option String := none
  birthPlace : Option String := none
  deathDate : Option String := none
  deathPlace : Option String := none
deriving Repr

structure FactDate where
  formal : Option String := none
  original : Option String := none
deriving Repr

structure FactPlace where
  original : Option String := none
deriving Repr

structure FactLinks where
  conclusion : Option Href := none
  person : Option Href := none
deriving Repr

structure PersonFact where
  type : Option String := none
  date : Option FactDate := none
  place : Option FactPlace := none
  value : Option String := none
  links : Option FactLinks := none
deriving Repr

structure GenderInfo where
  type : Option String := none
deriving Repr

structure Qualifier where
  name : Option String := none
  value : Option String := none
deriving Repr

structure SourceReference where
  descriptionId : Option String := none
  qualifiers : Option (List Qualifier) := none
deriving Repr

structure ValueWrap where
  value : Option String := none
deriving Repr

structure SourceDescription where
  id : Option String := none
  titles : Option (List ValueWrap) := none
  citations : Option (List ValueWrap) := none
  about : Option String := none
  resourceType : Option String := none
deriving Repr

structure PersonLinks where
  person : Option Href := none
deriving Repr

structure PersonData where
  id : String
  display : Option PersonDisplay := none
  names : Option (List PersonName) := none
  gender : Option GenderInfo := none
  facts : Option (List PersonFact) := none
  links : Option PersonLinks := none
  identifiers : Option (List (String × List String)) := none
  sources : Option (List SourceReference) := none
deriving Repr

structure ResourceInner where
  resourceId : Option String := none
deriving Repr

structure ResRef where
  resourceId : Option String := none
  resource : Option ResourceInner := none
deriving Repr

structure DetailPerson where
  facts : Option (List PersonFact) := none
deriving Repr

structure RelationshipDetails where
  facts : Option (List PersonFact) := none
  persons : Option (List DetailPerson) := none
deriving Repr

structure Relationship where
  id : String
  type : Option String := none
  person1 : Option ResRef := none
  person2 : Option ResRef := none
  parent1 : Option ResRef := none
  parent2 : Option ResRef := none
  child : Option ResRef := none
  facts : Option (List PersonFact) := none
  details : Option RelationshipDetails := none
deriving Repr

structure CapRel where
  id : String
  parent1 : Option ResourceInner := none
  parent2 : Option ResourceInner := none
  child : Option ResourceInner := none
deriving Repr

structure PersonWithRelationships where
  persons : Option (List PersonData) := none
  relationships : Option (List Relationship) := none
  childAndParentsRelationships : Option (List CapRel) := none
  sourceDescriptions : Option (List SourceDescription) := none
deriving Repr

structure NoteText where
  text : Option String := none
deriving Repr

structure NotesPersonEntry where
  notes : Option (List NoteText) := none
deriving Repr

structure NotesBlob where
  persons : Option (List NotesPersonEntry) := none
deriving Repr

structure EnhancedPerson extends PersonData where
  fullDetails : Option PersonWithRelationships := none
  notes : Option NotesBlob := none
deriving Repr

structure EnhancedPedigreeData where
  persons : Option (List EnhancedPerson) := none
  relationships : Option (List Relationship) := none
deriving Repr

inductive FsEnvironment
  | production
  | beta
  | integration
deriving Repr, DecidableEq

structure GedcomConversionOptions where
  treeName : Option String := none
  includeLinks : Option Bool := none
  includeNotes : Option Bool := none
  environment : Option FsEnvironment := none
  allowOrphanFamilies : Option Bool := none
  ancestryPersonIds : Option (List String) := none
deriving Repr

/-- The JS `Date` object, restricted to the three accessors the code calls
(`getDate`, `getMonth`, `getFullYear`). -/
structure JsDate where
  day : Nat
  month : Fin 12
  year : Int
deriving Repr

/-! ## JS value helpers -/

/-- JS truthiness of a `string | undefined` value. -/
def truthy : Option String → Bool
  | none => false
  | some s => !(s == "")

/-- JS `a || b` on `string | undefined` values. -/
def jsOr (a b : Option String) : Option String := if truthy a then a else b

def jsIncludes (s pat : String) : Bool := includesL s.data pat.data

def jsStartsWith (s pat : String) : Bool := startsWithL s.data pat.data

/-- JS `String.prototype.trim`. -/
def jsTrim (s : String) : String :=
  ⟨(((s.data.dropWhile Char.isWhitespace).reverse).dropWhile Char.isWhitespace).reverse⟩

/-- JS `s.replace(/\n/g, " ")`. -/
def replaceNl (s : String) : String :=
  ⟨s.data.map (fun c => if c = '\n' then ' ' else c)⟩

/-- JS `s.replace(/^(-|\+)/, "")`. -/
def stripSign (s : String) : String :=
  match s.data with
  | [] => s
  | c :: cs => if c = '-' ∨ c = '+' then ⟨cs⟩ else s

/-- JS default string comparison (`<` on code units / code points). -/
def strLtL : List Char → List Char → Bool
  | [], [] => false
  | [], _ :: _ => true
  | _ :: _, [] => false
  | a :: as, b :: bs =>
    if a.toNat < b.toNat then true
    else if b.toNat < a.toNat then false
    else strLtL as bs

def jsLt (a b : String) : Bool := strLtL a.data b.data

/-- `[a, b].sort().join("-")` for two strings. -/
def sortedPairKey (a b : String) : String :=
  if jsLt b a then b ++ "-" ++ a else a ++ "-" ++ b

/-! ## Insertion-ordered map/set models (JS `Map` / `Set`) -/

def insSet (s : List String) (x : String) : List String :=
  if s.contains x then s else s ++ [x]

def mapHas {V : Type} (m : List (String × V)) (k : String) : Bool :=
  m.any (fun p => p.1 == k)

def mapGet? {V : Type} (m : List (String × V)) (k : String) : Option V :=
  (m.find? (fun p => p.1 == k)).map (·.2)

def mapSet {V : Type} (m : List (String × V)) (k : String) (v : V) :
    List (String × V) :=
  if mapHas m k then m.map (fun p => if p.1 == k then (k, v) else p)
  else m ++ [(k, v)]

/-- JS `Array.prototype.indexOf` (first index, or none). -/
def jsIndexOf (l : List String) (x : String) : Option Nat :=
  match l with
  | [] => none
  | a :: as => if a == x then some 0 else (jsIndexOf as x).map (· + 1)

/-! ## Extractors (`extractName`, `extractGender`, `extractFact`,
`formatDateForGedcom`, `convertFactToGedcom`) -/

def strTransformFamilySearchUrl (s : String) : String :=
  ⟨transformFamilySearchUrl s.data⟩

def strTransformSourceUrl (s : String) : String :=
  ⟨transformSourceUrl s.data⟩

def extractName (person? : Option PersonData) : Option String :=
  match person? with
  | none => none
  | some p =>
    let structured : Option String :=
      match (p.names.bind List.head?).bind (fun n => n.nameForms.bind List.head?) with
      | none => none
      | some nameForm =>
        let parts := nameForm.parts.getD []
        let given := ((parts.find? fun pt =>
          match pt.type with
          | some t => jsIncludes t "Given"
          | none => false).bind (·.value)).getD ""
        let surname := ((parts.find? fun pt =>
          match pt.type with
          | some t => jsIncludes t "Surname"
          | none => false).bind (·.value)).getD ""
        if given ≠ "" ∨ surname ≠ "" then
          some (jsTrim (given ++ " /" ++ surname ++ "/"))
        else
          match nameForm.fullText with
          | some ft => if ft ≠ "" then some ft else none
          | none => none
    match structured with
    | some n => some n
    | none =>
      match p.display.bind (·.name) with
      | some n => if n ≠ "" then some n else none
      | none => none

def extractGender (person? : Option PersonData) : Option String :=
  match person? with
  | none => none
  | some p =>
    if (match p.gender.bind (·.type) with
        | some t => jsIncludes t "Male"
        | none => false) then some "M"
    else if (match p.gender.bind (·.type) with
        | some t => jsIncludes t "Female"
        | none => false) then some "F"
    else if p.display.bind (·.gender) == some "Male" then some "M"
    else if p.display.bind (·.gender) == some "Female" then some "F"
    else none

inductive FactKind
  | birth
  | death
deriving Repr, DecidableEq

structure DatePlace where
  date : Option String := none
  place : Option String := none
deriving Repr

def extractFact (person? : Option PersonData) (factType : FactKind) :
    Option DatePlace :=
  match person? with
  | none => none
  | some p =>
    let factTypeUrl :=
      if factType = FactKind.birth then "http://gedcomx.org/Birth"
      else "http://gedcomx.org/Death"
    let fact := (p.facts.getD []).find? (fun f => f.type == some factTypeUrl)
    let d0 : Option String :=
      match fact with
      | some f =>
        let dd := jsOr (f.date.bind (·.formal)) (f.date.bind (·.original))
        if truthy dd then dd.map stripSign else none
      | none => none
    let p0 : Option String :=
      match fact with
      | some f =>
        match f.place.bind (·.original) with
        | some pl => if pl ≠ "" then some pl else none
        | none => none
      | none => none
    let d1 :=
      match factType with
      | FactKind.birth => jsOr d0 (p.display.bind (·.birthDate))
      | FactKind.death => jsOr d0 (p.display.bind (·.deathDate))
    let p1 :=
      match factType with
      | FactKind.birth => jsOr p0 (p.display.bind (·.birthPlace))
      | FactKind.death => jsOr p0 (p.display.bind (·.deathPlace))
    if truthy d1 || truthy p1 then some ⟨d1, p1⟩ else none

def gedcomMonths : List String :=
  ["JAN", "FEB", "MAR", "APR", "MAY", "JUN",
   "JUL", "AUG", "SEP", "OCT", "NOV", "DEC"]

def formatDateForGedcom (date : JsDate) : String :=
  toString date.day ++ " " ++
    gedcomMonths.get ⟨date.month.val, by
      have h := date.month.isLt
      simp only [gedcomMonths, List.length_cons, List.length_nil]
      omega⟩ ++
    " " ++ toString date.year

def factTypeMap : List (String × String) :=
  [("http://gedcomx.org/Burial", "BURI"),
   ("http://gedcomx.org/Christening", "CHR"),
   ("http://gedcomx.org/Baptism", "BAPM"),
   ("http://gedcomx.org/Marriage", "MARR"),
   ("http://gedcomx.org/Divorce", "DIV"),
   ("http://gedcomx.org/Residence", "RESI"),
   ("http://gedcomx.org/Occupation", "OCCU"),
   ("http://gedcomx.org/Immigration", "IMMI"),
   ("http://gedcomx.org/Emigration", "EMIG"),
   ("http://gedcomx.org/Naturalization", "NATU"),
   ("http://gedcomx.org/Census", "CENS")]

def convertFactToGedcom (fact : PersonFact) : List String :=
  match fact.type with
  | none => []
  | some t =>
    if t == "" then []
    else
      let gedcomTag := (mapGet? factTypeMap t).getD "EVEN"
      let l1 :=
        if gedcomTag == "OCCU" && truthy fact.value then
          ["1 OCCU " ++ fact.value.getD ""]
        else ["1 " ++ gedcomTag]
      let l2 :=
        match (fact.links.bind (·.conclusion)).bind (·.href) with
        | some h =>
          if h ≠ "" then ["2 _FS_LINK " ++ strTransformFamilySearchUrl h] else []
        | none => []
      let l3 :=
        let dd := jsOr (fact.date.bind (·.formal)) (fact.date.bind (·.original))
        if truthy dd then ["2 DATE " ++ stripSign (dd.getD "")] else []
      let l4 :=
        match fact.place.bind (·.original) with
        | some pl => if pl ≠ "" then ["2 PLAC " ++ pl] else []
        | none => []
      let l5 :=
        if truthy fact.value && !(gedcomTag == "OCCU") then
          ["2 NOTE " ++ fact.value.getD ""]
        else []
      l1 ++ l2 ++ l3 ++ l4 ++ l5

/-! ## Conversion pipeline (`convertToGedcom`, section by section) -/

/-- COLLECT AND CREATE SOURCE RECORDS: dedupe source descriptions by id,
first discovery wins, insertion order kept. -/
def buildSourceMap (persons : List EnhancedPerson) :
    List (String × SourceDescription) :=
  persons.foldl (fun sm person =>
    match person.fullDetails.bind (·.sourceDescriptions) with
    | none => sm
    | some sourceDescriptions =>
      sourceDescriptions.foldl (fun sm source =>
        match source.id with
        | some sid =>
          if sid != "" && !(mapHas sm sid) then sm ++ [(sid, source)] else sm
        | none => sm) sm) []

def srcTitle (source : SourceDescription) : String :=
  match (source.titles.bind List.head?).bind (·.value) with
  | some v => if v ≠ "" then v else "FamilySearch Source"
  | none => "FamilySearch Source"

def srcText (source : SourceDescription) : List String :=
  match (source.citations.bind List.head?).bind (·.value) with
  | some v => if v ≠ "" then ["1 TEXT " ++ v] else []
  | none => []

def srcWww (source : SourceDescription) : List String :=
  match source.about with
  | some ab => if ab ≠ "" then ["1 WWW " ++ strTransformSourceUrl ab] else []
  | none => []

def srcNote (source : SourceDescription) : List String :=
  match source.resourceType with
  | some rt => if rt ≠ "" then ["1 NOTE Resource Type: " ++ rt] else []
  | none => []

/-- The lines of the `SOUR` record numbered `n`. -/
def srcBlock (n : Nat) (source : SourceDescription) : List String :=
  ["0 " ++ ("@S" ++ toString n ++ "@") ++ " SOUR", "1 TITL " ++ srcTitle source] ++
  srcText source ++ srcWww source ++ srcNote source

/-- One iteration of the source-record loop (`lines`, next id number). -/
def srcStep (acc : List String × Nat) (entry : String × SourceDescription) :
    List String × Nat :=
  (acc.1 ++ srcBlock acc.2 entry.2, acc.2 + 1)

/-- One GEDCOM `SOUR` record per deduplicated source, `@S1@` onward. -/
def sourceRecordLines (sm : List (String × SourceDescription)) : List String :=
  (sm.foldl srcStep ([], 1)).1

/-- STEP 1: `@I<n>@` ids for all persons in input-list order, before any
filtering. -/
def buildPersonIdMap (persons : List EnhancedPerson) : List (String × String) :=
  (persons.foldl (fun (acc : List (String × String) × Nat) person =>
    (mapSet acc.1 person.id ("@I" ++ toString (acc.2 + 1) ++ "@"), acc.2 + 1))
    ([], 0)).1

/-- `if (!exists) allRelationships.push(rel)` with `exists` checked by id. -/
def pushIfNewRel (acc : List Relationship) (rel : Relationship) : List Relationship :=
  if acc.any (fun r => r.id == rel.id) then acc else acc ++ [rel]

/-- The `-p1` ParentChild edge a composite child-and-parents record splits
into: parent1 primary, parent2 recorded as co-parent. -/
def capEdgeP1 (capRel : CapRel) (pp1 cc : ResourceInner) : Relationship :=
  { id := capRel.id ++ "-p1",
    type := some "http://gedcomx.org/ParentChild",
    person1 := some { resourceId := pp1.resourceId },
    person2 := some { resourceId := cc.resourceId },
    parent2 := capRel.parent2.map
      (fun pp2 => { resourceId := pp2.resourceId }) }

/-- The `-p2` edge: parent2 primary, parent1 recorded as co-parent. -/
def capEdgeP2 (capRel : CapRel) (pp2 cc : ResourceInner) : Relationship :=
  { id := capRel.id ++ "-p2",
    type := some "http://gedcomx.org/ParentChild",
    person1 := some { resourceId := pp2.resourceId },
    person2 := some { resourceId := cc.resourceId },
    parent2 := capRel.parent1.map
      (fun pp1 => { resourceId := pp1.resourceId }) }

/-- Split one composite child-and-parents record into its edges. -/
def capStep (acc : List Relationship) (capRel : CapRel) : List Relationship :=
  let acc :=
    match capRel.parent1, capRel.child with
    | some pp1, some cc => pushIfNewRel acc (capEdgeP1 capRel pp1 cc)
    | _, _ => acc
  match capRel.parent2, capRel.child with
  | some pp2, some cc => pushIfNewRel acc (capEdgeP2 capRel pp2 cc)
  | _, _ => acc

/-- Merge one person's detail relationships and composite records. -/
def personRelStep (acc : List Relationship) (person : EnhancedPerson) :
    List Relationship :=
  let acc :=
    match person.fullDetails.bind (·.relationships) with
    | none => acc
    | some personRelationships => personRelationships.foldl pushIfNewRel acc
  match person.fullDetails.bind (·.childAndParentsRelationships) with
  | none => acc
  | some caps => caps.foldl capStep acc

/-- COLLECT ALL RELATIONSHIPS: the copied pedigree list, then each person's
detail relationships and split composite child-and-parents records. -/
def collectAllRelationships (persons : List EnhancedPerson)
    (topRels : List Relationship) : List Relationship :=
  persons.foldl personRelStep topRels

structure FamilyEntry where
  spouses : List String
  children : List String
deriving Repr

/-- The parent endpoints of a ParentChild edge that exist in the person set
(`validParents` in the source). -/
def prValidParents (validPersonIds : List String) (rel : Relationship) :
    List String :=
  (if validPersonIds.contains ((rel.person1.bind (·.resourceId)).getD "") then
    [(rel.person1.bind (·.resourceId)).getD ""]
  else []) ++
  (match rel.parent2.bind (·.resourceId) with
   | some p2 =>
     if truthy (some p2) && validPersonIds.contains p2 then [p2] else []
   | none => [])

/-- The deduplicated parent list of a child after merging one edge's valid
parents into the existing list. -/
def prMergeParents (parents validParents : List String) : List String :=
  validParents.foldl
    (fun ps pid => if ps.contains pid then ps else ps ++ [pid]) parents

/-- One iteration of the `allRelationships.forEach` graph-building loop. -/
def prStep (validPersonIds : List String)
    (acc : List (String × List String) × List (String × FamilyEntry))
    (rel : Relationship) :
    List (String × List String) × List (String × FamilyEntry) :=
  let childToParents := acc.1
  let families := acc.2
  if (match rel.type with
      | some t => jsIncludes t "ParentChild"
      | none => false) then
    let parentId? := rel.person1.bind (·.resourceId)
    let childId? := rel.person2.bind (·.resourceId)
    if !(truthy parentId?) || !(truthy childId?) then acc
    else
      let childId := childId?.getD ""
      if !(validPersonIds.contains childId) then acc
      else
        let validParents := prValidParents validPersonIds rel
        if validParents.isEmpty then acc
        else
          let parents := (mapGet? childToParents childId).getD []
          (mapSet childToParents childId
            (prMergeParents parents validParents), families)
  else if (match rel.type with
      | some t => jsIncludes t "Couple"
      | none => false) then
    let person1? := rel.person1.bind (·.resourceId)
    let person2? := rel.person2.bind (·.resourceId)
    if !(truthy person1?) || !(truthy person2?) then acc
    else
      let p1 := person1?.getD ""
      let p2 := person2?.getD ""
      if validPersonIds.contains p1 && validPersonIds.contains p2 then
        let famKey := sortedPairKey p1 p2
        if mapHas families famKey then acc
        else (childToParents, families ++
          [(famKey, { spouses := if p1 == p2 then [p1] else [p1, p2],
                      children := [] })])
      else acc
  else acc

/-- Process all relationships into `childToParents` and couple families,
dropping edges whose endpoints are missing from the person set. -/
def processRelationships (allRels : List Relationship)
    (validPersonIds : List String) :
    List (String × List String) × List (String × FamilyEntry) :=
  allRels.foldl (prStep validPersonIds) ([], [])

/-- Attach each child to the family of its first one or two parents,
creating single-parent or two-parent families on demand. -/
def attachChildren (childToParents : List (String × List String))
    (families : List (String × FamilyEntry)) : List (String × FamilyEntry) :=
  childToParents.foldl (fun families entry =>
    let childId := entry.1
    match entry.2 with
    | p0 :: p1 :: _ =>
      let famKey := sortedPairKey p0 p1
      let fam := (mapGet? families famKey).getD { spouses := [p0, p1], children := [] }
      mapSet families famKey { fam with children := fam.children ++ [childId] }
    | [p0] =>
      let famKey := "single-" ++ p0
      let fam := (mapGet? families famKey).getD { spouses := [p0], children := [] }
      mapSet families famKey { fam with children := fam.children ++ [childId] }
    | [] => families) families

/-- Step 2 of the resolver: one pass adding spouses of connectable spouses. -/
def addSpousesOfConnectable (families : List (String × FamilyEntry))
    (s : List String) : List String :=
  families.foldl (fun s entry =>
    if entry.2.spouses.any (fun sp => s.contains sp) then
      entry.2.spouses.foldl insSet s
    else s) s

/-- Step 3a: downward traversal, children of connectable parents. -/
def addChildrenOfConnectable (childToParents : List (String × List String))
    (s : List String) : List String :=
  childToParents.foldl (fun s entry =>
    if entry.2.any (fun pid => s.contains pid) then insSet s entry.1 else s) s

/-- Step 3b: sideways traversal, all spouses of families with any
connectable spouse or child. -/
def addSpousesSideways (families : List (String × FamilyEntry))
    (s : List String) : List String :=
  families.foldl (fun s entry =>
    if entry.2.spouses.any (fun sp => s.contains sp) ||
        entry.2.children.any (fun c => s.contains c) then
      entry.2.spouses.foldl insSet s
    else s) s

def connectPass (childToParents : List (String × List String))
    (families : List (String × FamilyEntry)) (s : List String) : List String :=
  addSpousesSideways families (addChildrenOfConnectable childToParents s)

/-- The `while (addedNewPersons)` loop, with enough fuel to reach the
fixpoint (each productive pass adds at least one candidate). -/
def connectLoop (childToParents : List (String × List String))
    (families : List (String × FamilyEntry)) :
    Nat → List String → List String
  | 0, s => s
  | fuel + 1, s =>
    let s' := connectPass childToParents families s
    if s'.length == s.length then s'
    else connectLoop childToParents families fuel s'

def connectFuel (childToParents : List (String × List String))
    (families : List (String × FamilyEntry)) : Nat :=
  childToParents.length + (families.map (fun e => e.2.spouses.length)).sum + 1

/-- Legacy fallback: everyone appearing in any parent-child edge. -/
def connectFallback (childToParents : List (String × List String)) : List String :=
  childToParents.foldl
    (fun s entry => entry.2.foldl insSet (insSet s entry.1)) []

/-- The connectable-person set of the Connectivity Resolver. -/
def connectablePersons (options : GedcomConversionOptions)
    (childToParents : List (String × List String))
    (families : List (String × FamilyEntry)) : List String :=
  match options.ancestryPersonIds with
  | some seeds =>
    if seeds.length > 0 then
      let s0 := seeds.foldl insSet []
      let s1 := addSpousesOfConnectable families s0
      connectLoop childToParents families (connectFuel childToParents families) s1
    else connectFallback childToParents
  | none => connectFallback childToParents

/-- STEP 4: orphan family keys and the person→family-keys map. -/
def buildOrphanInfo (families : List (String × FamilyEntry))
    (connectable : List String) :
    List String × List (String × List String) :=
  families.foldl (fun acc entry =>
    let key := entry.1
    let family := entry.2
    let anyMemberConnectable :=
      family.spouses.any (fun sp => connectable.contains sp) ||
      family.children.any (fun c => connectable.contains c)
    let orphanFamKeys :=
      if !anyMemberConnectable then insSet acc.1 key else acc.1
    let personToFamKeys := family.spouses.foldl (fun m sp =>
      mapSet m sp (insSet ((mapGet? m sp).getD []) key)) acc.2
    let personToFamKeys := family.children.foldl (fun m c =>
      mapSet m c (insSet ((mapGet? m c).getD []) key)) personToFamKeys
    (orphanFamKeys, personToFamKeys)) ([], [])

def envBaseUrl (environment : FsEnvironment) : String :=
  match environment with
  | FsEnvironment.beta => "https://beta.familysearch.org"
  | FsEnvironment.integration => "https://integration.familysearch.org"
  | FsEnvironment.production => "https://www.familysearch.org"

/-- `person.fullDetails?.persons?.[0] || person`. -/
def personDataOf (person : EnhancedPerson) : PersonData :=
  match (person.fullDetails.bind (·.persons)).bind List.head? with
  | some pd => pd
  | none => person.toPersonData

/-- The source-citation lines of one INDI record. -/
def indiSourceLines (sourceMapKeys : List String)
    (personData : PersonData) : List String :=
  match personData.sources with
  | some personSources => personSources.foldl (fun acc sourceRef =>
      match sourceRef.descriptionId with
      | some sourceId =>
        if sourceId = "" then acc
        else
          match jsIndexOf sourceMapKeys sourceId with
          | none => acc
          | some sourceIndex =>
            acc ++ ["1 SOUR @S" ++ toString (sourceIndex + 1) ++ "@"] ++
            (sourceRef.qualifiers.getD []).foldl (fun acc2 qualifier =>
              match qualifier.name, qualifier.value with
              | some qn, some qv =>
                if qn ≠ "" && qv ≠ "" then
                  acc2 ++ ["2 NOTE " ++ qn ++ ": " ++ qv]
                else acc2
              | _, _ => acc2) []
      | none => acc) []
  | none => []

/-- STEP 5: one INDI record (id and lines), or `none` when the person is
skipped (missing id mapping, or an orphan person while orphan families are
disallowed). -/
def indiEmit (personIdMap : List (String × String))
    (personToFamKeys : List (String × List String)) (orphanFamKeys : List String)
    (allowOrphanFamilies includeLinks includeNotes : Bool)
    (environment : FsEnvironment) (sourceMapKeys : List String)
    (person : EnhancedPerson) : Option (String × List String) :=
  match mapGet? personIdMap person.id with
  | none => none
  | some gedcomId =>
    if !allowOrphanFamilies &&
        (match mapGet? personToFamKeys person.id with
         | some famKeys =>
           famKeys.length > 0 && famKeys.all (fun k => orphanFamKeys.contains k)
         | none => false) then
      none
    else
      let lFsId := if person.id ≠ "" then ["1 _FS_ID " ++ person.id] else []
      let lLink :=
        if includeLinks then
          let personLink := jsOr ((person.links.bind (·.person)).bind (·.href))
            ((((person.identifiers.getD []).find?
              (fun pr => pr.1 == "http://gedcomx.org/Persistent")).map (·.2)).bind
              List.head?)
          if truthy personLink then
            ["1 _FS_LINK " ++ strTransformFamilySearchUrl (personLink.getD "")]
          else if person.id ≠ "" then
            ["1 _FS_LINK " ++ envBaseUrl environment ++ "/tree/person/" ++ person.id]
          else []
        else []
      let personData := personDataOf person
      let lName :=
        match extractName (some personData) with
        | some n => if n ≠ "" then ["1 NAME " ++ n] else []
        | none => []
      let lSex :=
        match extractGender (some personData) with
        | some g => if g ≠ "" then ["1 SEX " ++ g] else []
        | none => []
      let lBirth :=
        match extractFact (some personData) FactKind.birth with
        | some b =>
          ["1 BIRT"] ++
          (if truthy b.date then ["2 DATE " ++ b.date.getD ""] else []) ++
          (if truthy b.place then ["2 PLAC " ++ b.place.getD ""] else [])
        | none => []
      let lDeath :=
        match extractFact (some personData) FactKind.death with
        | some d =>
          ["1 DEAT"] ++
          (if truthy d.date then ["2 DATE " ++ d.date.getD ""] else []) ++
          (if truthy d.place then ["2 PLAC " ++ d.place.getD ""] else [])
        | none => []
      let lFacts := (personData.facts.getD []).foldl (fun acc fact =>
        match fact.type with
        | some t =>
          if t ≠ "" && t != "http://gedcomx.org/Birth" &&
              t != "http://gedcomx.org/Death" then
            acc ++ convertFactToGedcom fact
          else acc
        | none => acc) []
      let lNotes :=
        if includeNotes then
          match ((person.notes.bind (·.persons)).bind List.head?).bind (·.notes) with
          | some notesList => notesList.foldl (fun acc note =>
              match note.text with
              | some txt =>
                if txt ≠ "" then acc ++ ["1 NOTE " ++ replaceNl txt] else acc
              | none => acc) []
          | none => []
        else []
      let lSources := indiSourceLines sourceMapKeys personData
      some (gedcomId,
        ["0 " ++ gedcomId ++ " INDI"] ++ lFsId ++ lLink ++ lName ++ lSex ++
        lBirth ++ lDeath ++ lFacts ++ lNotes ++ lSources)

def isMarriageFact (f : PersonFact) : Bool :=
  match f.type with
  | some t => jsIncludes t "Marriage"
  | none => false

/-- Marriage facts for a spouse pair, from the first relationship whose
endpoints match the sorted pair. -/
def addMarriageFacts (relationships : List Relationship)
    (person1 person2 : String) : List String :=
  let relKey := sortedPairKey person1 person2
  match relationships.find? (fun r =>
    let a := jsOr (r.person1.bind (·.resourceId))
      ((r.person1.bind (·.resource)).bind (·.resourceId))
    let b := jsOr (r.person2.bind (·.resourceId))
      ((r.person2.bind (·.resource)).bind (·.resourceId))
    if !(truthy a) || !(truthy b) then false
    else sortedPairKey (a.getD "") (b.getD "") == relKey) with
  | none => []
  | some rel =>
    let marriageFacts :=
      (rel.facts.getD []).filter isMarriageFact ++
      ((rel.details.bind (·.facts)).getD []).filter isMarriageFact ++
      ((rel.details.bind (·.persons)).getD []).foldl (fun acc p =>
        acc ++ (p.facts.getD []).filter isMarriageFact) []
    marriageFacts.foldl (fun acc mf => acc ++ convertFactToGedcom mf) []

structure FamRecord where
  key : String
  famId : String
  spouses : List String
  orphanTag : List String
  spouseLines : List String
  marriageLines : List String
  childLines : List String
deriving Repr, DecidableEq

def famRecordLines (r : FamRecord) : List String :=
  ["0 " ++ r.famId ++ " FAM"] ++ r.orphanTag ++ r.spouseLines ++
    r.marriageLines ++ r.childLines

/-- Gender lookup used when emitting a FAM record:
`extractGender(personData?.fullDetails?.persons?.[0] || personData)` on the
first person in the input list with the given id. -/
def famGenderOf (pedigreePersons : List EnhancedPerson) (pid : String) :
    Option String :=
  extractGender ((pedigreePersons.find? (fun p => p.id == pid)).map personDataOf)

/-- HUSB/WIFE lines of a FAM record. -/
def famSpouseLines (pedigreePersons : List EnhancedPerson)
    (personIdMap : List (String × String)) (spouseArray : List String) :
    List String :=
  match spouseArray with
  | [sp1, sp2] =>
    let gender1 := famGenderOf pedigreePersons sp1
    let gender2 := famGenderOf pedigreePersons sp2
    let p1 := mapGet? personIdMap sp1
    let p2 := mapGet? personIdMap sp2
    if gender1 == some "M" || gender2 == some "F" then
      (match p1 with | some g => ["1 HUSB " ++ g] | none => []) ++
      (match p2 with | some g => ["1 WIFE " ++ g] | none => [])
    else
      (match p2 with | some g => ["1 HUSB " ++ g] | none => []) ++
      (match p1 with | some g => ["1 WIFE " ++ g] | none => [])
  | [sp1] =>
    if famGenderOf pedigreePersons sp1 == some "M" then
      ["1 HUSB " ++ (mapGet? personIdMap sp1).getD "undefined"]
    else
      ["1 WIFE " ++ (mapGet? personIdMap sp1).getD "undefined"]
  | _ => []

/-- CHIL lines of a FAM record. -/
def famChildLines (personIdMap : List (String × String))
    (children : List String) : List String :=
  children.foldl (fun acc2 childId =>
    match mapGet? personIdMap childId with
    | some cg => acc2 ++ ["1 CHIL " ++ cg]
    | none => acc2) []

/-- One iteration of the STEP 6 `families.forEach` loop. -/
def famStep (pedigreePersons : List EnhancedPerson)
    (personIdMap : List (String × String)) (connectable : List String)
    (allRelationships : List Relationship) (allowOrphanFamilies : Bool)
    (acc : List FamRecord × Nat) (entry : String × FamilyEntry) :
    List FamRecord × Nat :=
  let key := entry.1
  let family := entry.2
  let spouseArray := family.spouses
  let parentsInMap := spouseArray.filter (fun pid => mapHas personIdMap pid)
  let hasNoParents := parentsInMap.length == 0
  let hasSingleParentNoChildren :=
    parentsInMap.length == 1 && family.children.length == 0
  if hasNoParents then acc
  else if hasSingleParentNoChildren then acc
  else
    let anyMemberConnectable :=
      spouseArray.any (fun sp => connectable.contains sp) ||
      family.children.any (fun c => connectable.contains c)
    let isOrphanFamily := !anyMemberConnectable
    if isOrphanFamily && !allowOrphanFamilies then acc
    else
      let famId := "@F" ++ toString acc.2 ++ "@"
      let orphanTag :=
        if isOrphanFamily && allowOrphanFamilies then ["1 _IS_ORPHAN_FAMILY Y"]
        else []
      let spouseLines := famSpouseLines pedigreePersons personIdMap spouseArray
      let marriageLines :=
        match spouseArray with
        | [sp1, sp2] => addMarriageFacts allRelationships sp1 sp2
        | _ => []
      let childLines := famChildLines personIdMap family.children
      let record : FamRecord :=
        { key := key, famId := famId, spouses := spouseArray,
          orphanTag := orphanTag, spouseLines := spouseLines,
          marriageLines := marriageLines, childLines := childLines }
      (acc.1 ++ [record], acc.2 + 1)

/-- STEP 6: FAM records with invalid-family and orphan-family suppression. -/
def famEmit (pedigreePersons : List EnhancedPerson)
    (personIdMap : List (String × String)) (connectable : List String)
    (allRelationships : List Relationship) (allowOrphanFamilies : Bool)
    (families : List (String × FamilyEntry)) : List FamRecord :=
  (families.foldl
    (famStep pedigreePersons personIdMap connectable allRelationships
      allowOrphanFamilies) ([], 1)).1

/-- `lines.splice(insertIndex, 0, newLine)` after the first occurrence of
`target`, optionally skipping `1 FAMC` lines first (the FAMS case). -/
def insertSkippingFamc (newLine : String) : List String → List String
  | [] => [newLine]
  | l :: ls =>
    if jsStartsWith l "1 FAMC" then l :: insertSkippingFamc newLine ls
    else newLine :: l :: ls

def spliceAfterIndi (target newLine : String) (skipFamc : Bool) :
    List String → List String
  | [] => []
  | l :: ls =>
    if l == target then
      l :: (if skipFamc then insertSkippingFamc newLine ls else newLine :: ls)
    else l :: spliceAfterIndi target newLine skipFamc ls

/-- One FAMC splice: link a child's INDI record to its family. -/
def famcStep (personIdMap familyIdMap : List (String × String))
    (lines : List String) (entry : String × List String) : List String :=
  match mapGet? personIdMap entry.1 with
  | none => lines
  | some childGedcomId =>
    let famId? : Option String :=
      match entry.2 with
      | p0 :: p1 :: _ => mapGet? familyIdMap (sortedPairKey p0 p1)
      | [p0] => mapGet? familyIdMap ("single-" ++ p0)
      | [] => none
    match famId? with
    | some fid =>
      spliceAfterIndi ("0 " ++ childGedcomId ++ " INDI") ("1 FAMC " ++ fid)
        false lines
    | none => lines

/-- Add FAMC links to individuals. -/
def applyFamcSplices (childToParents : List (String × List String))
    (personIdMap familyIdMap : List (String × String))
    (lines : List String) : List String :=
  childToParents.foldl (famcStep personIdMap familyIdMap) lines

/-- One FAMS splice: link one spouse's INDI record to a family. -/
def famsSpouseStep (personIdMap : List (String × String)) (famId : String)
    (lines : List String) (spouseId : String) : List String :=
  match mapGet? personIdMap spouseId with
  | none => lines
  | some spouseGedcomId =>
    spliceAfterIndi ("0 " ++ spouseGedcomId ++ " INDI")
      ("1 FAMS " ++ famId) true lines

/-- All FAMS splices of one family. -/
def famsStep (personIdMap familyIdMap : List (String × String))
    (lines : List String) (entry : String × FamilyEntry) : List String :=
  match mapGet? familyIdMap entry.1 with
  | none => lines
  | some famId =>
    entry.2.spouses.foldl (famsSpouseStep personIdMap famId) lines

/-- Add FAMS links to individuals. -/
def applyFamsSplices (families : List (String × FamilyEntry))
    (personIdMap familyIdMap : List (String × String))
    (lines : List String) : List String :=
  families.foldl (famsStep personIdMap familyIdMap) lines

def headerPrefixLines : List String :=
  ["0 HEAD", "1 SOUR FamilySearch", "2 VERS 1.0",
   "2 NAME FamilySearch API", "1 DEST ANY"]

def headerSuffixLines (treeName : String) : List String :=
  ["1 SUBM @SUBM1@", "1 FILE " ++ treeName, "1 GEDC", "2 VERS 5.5",
   "2 FORM LINEAGE-LINKED", "1 CHAR UTF-8", "0 @SUBM1@ SUBM"]

/-! Named stages of one conversion run, shared by the emitter and by the
properties below. -/

def personsOf (pd : EnhancedPedigreeData) : List EnhancedPerson :=
  pd.persons.getD []

def sourceMapOf (pd : EnhancedPedigreeData) : List (String × SourceDescription) :=
  buildSourceMap (personsOf pd)

def personIdMapOf (pd : EnhancedPedigreeData) : List (String × String) :=
  buildPersonIdMap (personsOf pd)

def allRelationshipsOf (pd : EnhancedPedigreeData) : List Relationship :=
  collectAllRelationships (personsOf pd) (pd.relationships.getD [])

def validPersonIdsOf (pd : EnhancedPedigreeData) : List String :=
  (personsOf pd).map (·.id)

def childToParentsOf (pd : EnhancedPedigreeData) : List (String × List String) :=
  (processRelationships (allRelationshipsOf pd) (validPersonIdsOf pd)).1

def familiesOf (pd : EnhancedPedigreeData) : List (String × FamilyEntry) :=
  attachChildren (childToParentsOf pd)
    (processRelationships (allRelationshipsOf pd) (validPersonIdsOf pd)).2

def connectableOf (pd : EnhancedPedigreeData)
    (options : GedcomConversionOptions) : List String :=
  connectablePersons options (childToParentsOf pd) (familiesOf pd)

def orphanInfoOf (pd : EnhancedPedigreeData)
    (options : GedcomConversionOptions) :
    List String × List (String × List String) :=
  buildOrphanInfo (familiesOf pd) (connectableOf pd options)

def indiRecordsOf (pd : EnhancedPedigreeData)
    (options : GedcomConversionOptions) : List (String × List String) :=
  (personsOf pd).filterMap
    (indiEmit (personIdMapOf pd) (orphanInfoOf pd options).2
      (orphanInfoOf pd options).1 (options.allowOrphanFamilies == some true)
      (options.includeLinks.getD true) (options.includeNotes.getD true)
      (options.environment.getD FsEnvironment.production)
      ((sourceMapOf pd).map (·.1)))

def famRecordsOf (pd : EnhancedPedigreeData)
    (options : GedcomConversionOptions) : List FamRecord :=
  famEmit (personsOf pd) (personIdMapOf pd) (connectableOf pd options)
    (allRelationshipsOf pd) (options.allowOrphanFamilies == some true)
    (familiesOf pd)

def familyIdMapOf (pd : EnhancedPedigreeData)
    (options : GedcomConversionOptions) : List (String × String) :=
  (famRecordsOf pd options).map (fun r => (r.key, r.famId))

/-- The full emitted line list of a successful conversion. -/
def convertLines (pedigreeData : EnhancedPedigreeData)
    (options : GedcomConversionOptions) (now : JsDate) : List String :=
  let indiLines := (indiRecordsOf pedigreeData options).foldl
    (fun acc r => acc ++ r.2) []
  let famLines := (famRecordsOf pedigreeData options).foldl
    (fun acc r => acc ++ famRecordLines r) []
  let base := headerPrefixLines ++
    ["1 DATE " ++ formatDateForGedcom now] ++
    headerSuffixLines (options.treeName.getD "FamilySearch Import") ++
    sourceRecordLines (sourceMapOf pedigreeData) ++ indiLines ++ famLines
  let spliced := applyFamsSplices (familiesOf pedigreeData)
    (personIdMapOf pedigreeData) (familyIdMapOf pedigreeData options)
    (applyFamcSplices (childToParentsOf pedigreeData)
      (personIdMapOf pedigreeData) (familyIdMapOf pedigreeData options) base)
  spliced ++ ["0 TRLR"]

/-- `convertToGedcom`: throws when the input or its person list is missing,
otherwise returns the newline-joined GEDCOM text. -/
def convertToGedcom (pedigreeData : Option EnhancedPedigreeData)
    (options : GedcomConversionOptions) (now : JsDate) : Except String String :=
  match pedigreeData with
  | none => Except.error "Invalid FamilySearch data: no persons found"
  | some pd =>
    match pd.persons with
    | none => Except.error "Invalid FamilySearch data: no persons found"
    | some _ => Except.ok (String.intercalate "\n" (convertLines pd options now))

/-! ## General fold helpers -/

theorem foldl_inv {α β : Type} (P : β → Prop) (f : β → α → β) (l : List α)
    (b : β) (hb : P b) (hstep : ∀ acc a, a ∈ l → P acc → P (f acc a)) :
    P (l.foldl f b) := by
  induction l generalizing b with
  | nil => exact hb
  | cons x xs ih =>
    exact ih (f b x) (hstep b x (List.mem_cons_self _ _) hb)
      (fun acc a ha hp => hstep acc a (List.mem_cons_of_mem _ ha) hp)

theorem subset_foldl {α β : Type} (f : List α → β → List α) (l : List β)
    (s : List α) (hf : ∀ acc b, acc ⊆ f acc b) : s ⊆ l.foldl f s := by
  induction l generalizing s with
  | nil => exact fun _ h => h
  | cons x xs ih => exact fun a ha => ih (f s x) (hf s x ha)

theorem filterMap_sublist_mono {α β : Type} (f g : α → Option β) (l : List α)
    (h : ∀ a r, f a = some r → g a = some r) :
    (l.filterMap f).Sublist (l.filterMap g) := by
  induction l with
  | nil => exact List.Sublist.refl _
  | cons x xs ih =>
    cases hfx : f x with
    | none =>
      cases hgx : g x with
      | none => simpa [List.filterMap_cons, hfx, hgx] using ih
      | some r =>
        simp only [List.filterMap_cons, hfx, hgx]
        exact ih.cons _
    | some r =>
      have hgx : g x = some r := h x r hfx
      simp only [List.filterMap_cons, hfx, hgx]
      exact ih.cons₂ _

/-! ## Claim C1: abort condition -/

def refDate : JsDate := ⟨1, ⟨0, by decide⟩, 2020⟩

/-- Claim C1 exactly as stated: the conversion errors iff the person list is
missing **or empty**. -/
def abortsIffPersonsMissingOrEmpty : Prop :=
  ∀ (pd : Option EnhancedPedigreeData) (opts : GedcomConversionOptions)
    (now : JsDate),
    (∃ e, convertToGedcom pd opts now = Except.error e) ↔
      (pd = none ∨ ∃ d, pd = some d ∧ (d.persons = none ∨ d.persons = some []))

/-- C1 counterexample: a present-but-empty person list does **not** abort
(`!pedigreeData.persons` is false for `[]`); conversion returns a GEDCOM
string, contradicting the "or empty" half of the claim. -/
theorem c1_empty_person_list_does_not_abort : ¬ abortsIffPersonsMissingOrEmpty := by
  intro h
  rcases (h (some { persons := some [], relationships := none }) {} refDate).mpr
    (Or.inr ⟨{ persons := some [], relationships := none }, rfl, Or.inr rfl⟩)
    with ⟨e, he⟩
  simp [convertToGedcom] at he

/-- C1 (amended): `convertToGedcom` aborts with an error iff the input object
or its person list is missing; for every input with a present person list
(an empty list included) it completes and returns a GEDCOM string. -/
theorem c1_error_iff_persons_missing (pd : Option EnhancedPedigreeData)
    (opts : GedcomConversionOptions) (now : JsDate) :
    (∃ e, convertToGedcom pd opts now = Except.error e) ↔
      (pd = none ∨ ∃ d, pd = some d ∧ d.persons = none) := by
  cases pd with
  | none => simp [convertToGedcom]
  | some d =>
    cases hp : d.persons with
    | none => simp [convertToGedcom, hp]
    | some ps => simp [convertToGedcom, hp]

/-! ## Claim C10: idempotent URL rewriting -/

/-- C10: both URL rewriting functions are idempotent: a second application
returns the first application's output unchanged. -/
theorem c10_url_transforms_idempotent (url : List Char) :
    transformFamilySearchUrl (transformFamilySearchUrl url) =
      transformFamilySearchUrl url ∧
    transformSourceUrl (transformSourceUrl url) = transformSourceUrl url :=
  ⟨transformFamilySearchUrl_idem url, transformSourceUrl_idem url⟩

/-! ## Characterization of STEP 6 (FAM emission) -/

/-- The keep/suppress decision of STEP 6 for one family. -/
def famKeep (personIdMap : List (String × String)) (connectable : List String)
    (allowOrphanFamilies : Bool) (entry : String × FamilyEntry) : Bool :=
  let parentsInMap := entry.2.spouses.filter (fun pid => mapHas personIdMap pid)
  let isOrphanFamily :=
    !(entry.2.spouses.any (fun sp => connectable.contains sp) ||
      entry.2.children.any (fun c => connectable.contains c))
  !(parentsInMap.length == 0) &&
  !(parentsInMap.length == 1 && entry.2.children.length == 0) &&
  !(isOrphanFamily && !allowOrphanFamilies)

/-- The record STEP 6 generates for a kept family at counter `n`. -/
def famRecordFor (pedigreePersons : List EnhancedPerson)
    (personIdMap : List (String × String)) (connectable : List String)
    (allRelationships : List Relationship) (allowOrphanFamilies : Bool)
    (n : Nat) (entry : String × FamilyEntry) : FamRecord :=
  { key := entry.1
    famId := "@F" ++ toString n ++ "@"
    spouses := entry.2.spouses
    orphanTag :=
      if (!(entry.2.spouses.any (fun sp => connectable.contains sp) ||
          entry.2.children.any (fun c => connectable.contains c))) &&
          allowOrphanFamilies then ["1 _IS_ORPHAN_FAMILY Y"]
      else []
    spouseLines := famSpouseLines pedigreePersons personIdMap entry.2.spouses
    marriageLines :=
      match entry.2.spouses with
      | [sp1, sp2] => addMarriageFacts allRelationships sp1 sp2
      | _ => []
    childLines := famChildLines personIdMap entry.2.children }

/-- Build a list by applying `f` to consecutive counters and elements. -/
def enumFrom {α β : Type} (f : Nat → α → β) : Nat → List α → List β
  | _, [] => []
  | n, x :: xs => f n x :: enumFrom f (n + 1) xs

theorem famStep_eq (ppl : List EnhancedPerson) (pim : List (String × String))
    (conn : List String) (rels : List Relationship) (allow : Bool)
    (acc : List FamRecord) (n : Nat) (entry : String × FamilyEntry) :
    famStep ppl pim conn rels allow (acc, n) entry =
      if famKeep pim conn allow entry then
        (acc ++ [famRecordFor ppl pim conn rels allow n entry], n + 1)
      else (acc, n) := by
  by_cases h1 : ((entry.2.spouses.filter
      (fun pid => mapHas pim pid)).length == 0) = true
  · simp [famStep, famKeep, h1]
  · by_cases h2 : ((entry.2.spouses.filter
        (fun pid => mapHas pim pid)).length == 1 &&
        entry.2.children.length == 0) = true
    · simp [famStep, famKeep, h1, h2]
    · cases hA : ((entry.2.spouses.any fun sp => conn.contains sp) ||
          entry.2.children.any fun c => conn.contains c) with
      | true =>
        cases allow <;>
          simp only [famStep, famKeep, famRecordFor, hA, Bool.not_true,
            Bool.not_false, Bool.false_and, Bool.and_false, Bool.true_and,
            Bool.and_true, if_false, if_true, Bool.false_eq_true,
            reduceIte] <;>
          simp [h1, h2]
      | false =>
        cases allow <;>
          simp only [famStep, famKeep, famRecordFor, hA, Bool.not_true,
            Bool.not_false, Bool.false_and, Bool.and_false, Bool.true_and,
            Bool.and_true, if_false, if_true, Bool.false_eq_true,
            reduceIte] <;>
          simp [h1, h2]

theorem famEmit_fold (ppl : List EnhancedPerson) (pim : List (String × String))
    (conn : List String) (rels : List Relationship) (allow : Bool)
    (families : List (String × FamilyEntry)) :
    ∀ (acc : List FamRecord) (n : Nat),
    families.foldl (famStep ppl pim conn rels allow) (acc, n) =
      (acc ++ enumFrom (famRecordFor ppl pim conn rels allow) n
          (families.filter (famKeep pim conn allow)),
        n + (families.filter (famKeep pim conn allow)).length) := by
  induction families with
  | nil => intro acc n; simp [enumFrom]
  | cons e fs ih =>
    intro acc n
    cases hk : famKeep pim conn allow e with
    | true =>
      rw [List.foldl_cons, famStep_eq, if_pos hk, ih]
      simp [List.filter_cons, hk, enumFrom]
      omega
    | false =>
      rw [List.foldl_cons, famStep_eq, if_neg (by simp [hk]), ih]
      simp [List.filter_cons, hk]

/-- STEP 6 emits exactly the kept families, in order, with counters from 1. -/
theorem famEmit_eq (ppl : List EnhancedPerson) (pim : List (String × String))
    (conn : List String) (rels : List Relationship) (allow : Bool)
    (families : List (String × FamilyEntry)) :
    famEmit ppl pim conn rels allow families =
      enumFrom (famRecordFor ppl pim conn rels allow) 1
        (families.filter (famKeep pim conn allow)) := by
  unfold famEmit
  rw [famEmit_fold]
  simp

theorem enumFrom_map_proj {α β γ : Type} (f : Nat → α → β) (g : β → γ)
    (p : α → γ) (hg : ∀ n x, g (f n x) = p x) :
    ∀ (n : Nat) (l : List α), (enumFrom f n l).map g = l.map p := by
  intro n l
  induction l generalizing n with
  | nil => rfl
  | cons x xs ih => simp [enumFrom, hg, ih]

theorem enumFrom_mem {α β : Type} {f : Nat → α → β} {y : β} :
    ∀ {n : Nat} {l : List α}, y ∈ enumFrom f n l →
      ∃ i x, x ∈ l ∧ y = f (n + i) x := by
  intro n l
  induction l generalizing n with
  | nil => intro h; cases h
  | cons x xs ih =>
    intro h
    rcases List.mem_cons.mp h with h | h
    · exact ⟨0, x, List.mem_cons_self _ _, by simpa using h⟩
    · rcases ih h with ⟨i, x', hx', hy⟩
      exact ⟨i + 1, x', List.mem_cons_of_mem _ hx',
        by rw [hy]; congr 1; omega⟩

/-- Keys emitted by STEP 6 are exactly the kept families' keys, in order. -/
theorem famEmit_keys (ppl : List EnhancedPerson) (pim : List (String × String))
    (conn : List String) (rels : List Relationship) (allow : Bool)
    (families : List (String × FamilyEntry)) :
    (famEmit ppl pim conn rels allow families).map (·.key) =
      (families.filter (famKeep pim conn allow)).map (·.1) := by
  rw [famEmit_eq]
  exact enumFrom_map_proj (famRecordFor ppl pim conn rels allow)
    (fun r => r.key) (fun e => e.1) (fun n x => rfl) 1 _

/-! ## Association-list and set-model lemmas -/

theorem contains_iff (l : List String) (x : String) :
    l.contains x = true ↔ x ∈ l := List.elem_iff

theorem mapGet?_mem {V : Type} {m : List (String × V)} {k : String} {v : V}
    (h : mapGet? m k = some v) : (k, v) ∈ m := by
  unfold mapGet? at h
  cases hf : m.find? (fun p => p.1 == k) with
  | none => rw [hf] at h; cases h
  | some p =>
    rw [hf] at h
    have hp : p ∈ m := List.mem_of_find?_eq_some hf
    have hk : p.1 = k := by
      have := List.find?_some hf
      simpa using this
    have hv : p.2 = v := by simpa using h
    have : p = (k, v) := by
      cases p
      simp at hk hv
      simp [hk, hv]
    rwa [this] at hp

theorem mapHas_iff_keymem {V : Type} (m : List (String × V)) (k : String) :
    mapHas m k = true ↔ k ∈ m.map (·.1) := by
  simp only [mapHas, List.any_eq_true, List.mem_map, beq_iff_eq]

theorem mapGet?_isSome_of_has {V : Type} {m : List (String × V)} {k : String}
    (h : mapHas m k = true) : ∃ v, mapGet? m k = some v := by
  unfold mapHas at h
  unfold mapGet?
  cases hf : m.find? (fun p => p.1 == k) with
  | none =>
    rcases List.any_eq_true.mp h with ⟨p, hp, hpk⟩
    have := List.find?_eq_none.mp hf p hp
    rw [hpk] at this
    cases this rfl
  | some p => exact ⟨p.2, rfl⟩

theorem mapSet_mem {V : Type} {m : List (String × V)} {k : String} {v : V}
    {e : String × V} (h : e ∈ mapSet m k v) : e ∈ m ∨ e = (k, v) := by
  unfold mapSet at h
  split at h
  · rcases List.mem_map.mp h with ⟨p, hp, he⟩
    by_cases hpk : (p.1 == k) = true
    · right; rw [← he]; simp [hpk]
    · left; rw [← he]; simpa [hpk] using hp
  · rcases List.mem_append.mp h with h1 | h1
    · exact Or.inl h1
    · right; simpa using h1

theorem mapSet_keys_of_has {V : Type} {m : List (String × V)} {k : String}
    (v : V) (h : mapHas m k = true) :
    (mapSet m k v).map (·.1) = m.map (·.1) := by
  unfold mapSet
  rw [if_pos h, List.map_map]
  apply List.map_congr_left
  intro p hp
  by_cases hpk : p.1 = k
  · simp [hpk]
  · simp [hpk]

theorem mapSet_keys_of_not_has {V : Type} {m : List (String × V)} {k : String}
    (v : V) (h : mapHas m k = false) :
    (mapSet m k v).map (·.1) = m.map (·.1) ++ [k] := by
  unfold mapSet
  rw [if_neg (by simp [h])]
  simp

theorem assoc_unique {V : Type} {m : List (String × V)} {k : String} {a b : V}
    (hnd : (m.map (·.1)).Nodup) (ha : (k, a) ∈ m) (hb : (k, b) ∈ m) :
    a = b := by
  induction m with
  | nil => cases ha
  | cons p ps ih =>
    simp only [List.map_cons, List.nodup_cons] at hnd
    rcases List.mem_cons.mp ha with ha1 | ha1 <;>
      rcases List.mem_cons.mp hb with hb1 | hb1
    · exact congrArg Prod.snd (ha1.trans hb1.symm)
    · exfalso
      exact hnd.1 (List.mem_map.mpr ⟨(k, b), hb1, by rw [← ha1]⟩)
    · exfalso
      exact hnd.1 (List.mem_map.mpr ⟨(k, a), ha1, by rw [← hb1]⟩)
    · exact ih hnd.2 ha1 hb1

/-- Elements of a push-if-absent fold come from the base or the pushed list. -/
theorem mem_foldl_pushNew {l : List String} {base : List String} {x : String}
    (h : x ∈ l.foldl (fun ps pid => if ps.contains pid then ps else ps ++ [pid])
      base) : x ∈ base ∨ x ∈ l := by
  induction l generalizing base with
  | nil => exact Or.inl h
  | cons a as ih =>
    simp only [List.foldl_cons] at h
    rcases ih h with h1 | h1
    · by_cases hc : base.contains a = true
      · rw [if_pos hc] at h1; exact Or.inl h1
      · rw [if_neg hc] at h1
        rcases List.mem_append.mp h1 with h2 | h2
        · exact Or.inl h2
        · right
          rw [List.mem_singleton.mp h2]
          exact List.mem_cons_self a as
    · exact Or.inr (List.mem_cons_of_mem _ h1)

theorem foldl_pushNew_ne_nil {l base : List String} :
    base ≠ [] ∨ l ≠ [] →
    l.foldl (fun ps pid => if ps.contains pid then ps else ps ++ [pid])
      base ≠ [] := by
  intro h
  induction l generalizing base with
  | nil =>
    rcases h with h | h
    · exact h
    · exact absurd rfl h
  | cons a as ih =>
    simp only [List.foldl_cons]
    apply ih
    left
    by_cases hc : base.contains a = true
    · rw [if_pos hc]
      intro hb
      rw [hb] at hc
      simp [List.contains] at hc
    · rw [if_neg hc]
      simp

theorem mem_insSet {s : List String} {x y : String} (h : y ∈ insSet s x) :
    y ∈ s ∨ y = x := by
  unfold insSet at h
  split at h
  · exact Or.inl h
  · rcases List.mem_append.mp h with h1 | h1
    · exact Or.inl h1
    · exact Or.inr (List.mem_singleton.mp h1)

theorem subset_insSet (s : List String) (x : String) : s ⊆ insSet s x := by
  unfold insSet
  split
  · exact fun _ h => h
  · exact fun a h => List.mem_append_left _ h

theorem mem_insSet_self (s : List String) (x : String) : x ∈ insSet s x := by
  unfold insSet
  split
  · next h => exact (contains_iff s x).mp h
  · exact List.mem_append_right _ (List.mem_singleton.mpr rfl)

theorem mem_foldl_insSet {l s : List String} {x : String}
    (h : x ∈ l.foldl insSet s) : x ∈ s ∨ x ∈ l := by
  induction l generalizing s with
  | nil => exact Or.inl h
  | cons a as ih =>
    simp only [List.foldl_cons] at h
    rcases ih h with h1 | h1
    · rcases mem_insSet h1 with h2 | h2
      · exact Or.inl h2
      · exact Or.inr (h2 ▸ List.mem_cons_self a as)
    · exact Or.inr (List.mem_cons_of_mem _ h1)

theorem subset_foldl_insSet (l s : List String) : s ⊆ l.foldl insSet s :=
  subset_foldl (fun acc b => insSet acc b) l s subset_insSet

/-! ## Structural invariants of the Family Graph Builder -/

/-- Invariant of a `childToParents` entry. -/
def ctpWF (valid : List String) (entry : String × List String) : Prop :=
  entry.1 ∈ valid ∧ entry.2 ≠ [] ∧ ∀ p ∈ entry.2, p ∈ valid

/-- Invariant of a family entry: one or two spouses, all members valid. -/
def famWF (valid : List String) (fam : FamilyEntry) : Prop :=
  ((∃ a, fam.spouses = [a]) ∨ ∃ a b, fam.spouses = [a, b]) ∧
  (∀ x ∈ fam.spouses, x ∈ valid) ∧ ∀ x ∈ fam.children, x ∈ valid

theorem mapHas_of_keys_eq {V : Type} {m₁ m₂ : List (String × V)} {k : String}
    (h : m₁.map (·.1) = m₂.map (·.1)) : mapHas m₁ k = mapHas m₂ k := by
  cases h1 : mapHas m₁ k <;> cases h2 : mapHas m₂ k <;> try rfl
  · rw [← Bool.not_eq_true] at h1
    rw [mapHas_iff_keymem, ← h] at h2
    rw [mapHas_iff_keymem] at h1
    exact absurd h2 h1
  · rw [← Bool.not_eq_true] at h2
    rw [mapHas_iff_keymem, h] at h1
    rw [mapHas_iff_keymem] at h2
    exact absurd h1 h2

theorem prValidParents_subset (valid : List String) (rel : Relationship) :
    ∀ x ∈ prValidParents valid rel, x ∈ valid := by
  intro x hx
  unfold prValidParents at hx
  rcases List.mem_append.mp hx with h | h
  · split at h
    · rename_i hc
      rw [List.mem_singleton.mp h]
      exact (contains_iff _ _).mp hc
    · cases h
  · split at h
    · rename_i p2 hp2
      split at h
      · rename_i hc
        rw [List.mem_singleton.mp h]
        have hc2 : truthy (some p2) = true ∧ valid.contains p2 = true := by
          rw [← Bool.and_eq_true]; exact hc
        exact (contains_iff _ _).mp hc2.2
      · cases h
    · cases h

theorem prMergeParents_mem {parents vp : List String} {x : String}
    (h : x ∈ prMergeParents parents vp) : x ∈ parents ∨ x ∈ vp :=
  mem_foldl_pushNew h

theorem prMergeParents_ne_nil {parents vp : List String} (h : vp ≠ []) :
    prMergeParents parents vp ≠ [] :=
  foldl_pushNew_ne_nil (Or.inr h)

theorem processRelationships_wf (rels : List Relationship)
    (valid : List String) :
    (∀ e ∈ (processRelationships rels valid).1, ctpWF valid e) ∧
    (∀ e ∈ (processRelationships rels valid).2, famWF valid e.2) ∧
    ((processRelationships rels valid).2.map (·.1)).Nodup := by
  unfold processRelationships
  refine foldl_inv (fun (acc : List (String × List String) ×
      List (String × FamilyEntry)) =>
      (∀ e ∈ acc.1, ctpWF valid e) ∧ (∀ e ∈ acc.2, famWF valid e.2) ∧
        (acc.2.map (·.1)).Nodup)
    _ rels ([], []) ⟨by simp, by simp, by simp⟩ ?_
  intro acc rel _ hP
  obtain ⟨h1, h2, h3⟩ := hP
  unfold prStep
  dsimp only
  split
  · -- ParentChild branch
    split
    · exact ⟨h1, h2, h3⟩
    · split
      · exact ⟨h1, h2, h3⟩
      · split
        · exact ⟨h1, h2, h3⟩
        · rename_i htype htr hvc hvp
          refine ⟨?_, h2, h3⟩
          intro e he
          rcases mapSet_mem he with he1 | he1
          · exact h1 e he1
          · rw [he1]
            have hchild : valid.contains
                ((rel.person2.bind (·.resourceId)).getD "") = true := by
              cases hcc : valid.contains ((rel.person2.bind (·.resourceId)).getD "") with
              | true => rfl
              | false => exact absurd (by rw [hcc]; rfl) hvc
            have hvpn : prValidParents valid rel ≠ [] := by
              intro hn
              rw [hn] at hvp
              exact hvp rfl
            refine ⟨(contains_iff _ _).mp hchild,
              prMergeParents_ne_nil hvpn, ?_⟩
            intro p hp
            rcases prMergeParents_mem hp with hp1 | hp1
            · cases hget : mapGet? acc.1
                ((rel.person2.bind (·.resourceId)).getD "") with
              | none => rw [hget] at hp1; cases hp1
              | some old =>
                rw [hget] at hp1
                exact (h1 _ (mapGet?_mem hget)).2.2 p hp1
            · exact prValidParents_subset valid rel p hp1
  · -- not ParentChild
    split
    · -- Couple branch
      split
      · exact ⟨h1, h2, h3⟩
      · split
        · split
          · exact ⟨h1, h2, h3⟩
          · rename_i htype2 htr hboth hnew
            refine ⟨h1, ?_, ?_⟩
            · intro e he
              rcases List.mem_append.mp he with he1 | he1
              · exact h2 e he1
              · rw [List.mem_singleton.mp he1]
                have hb : valid.contains ((rel.person1.bind (·.resourceId)).getD "") = true ∧
                    valid.contains ((rel.person2.bind (·.resourceId)).getD "") = true := by
                  rw [← Bool.and_eq_true]; exact hboth
                have hp1 : ((rel.person1.bind (·.resourceId)).getD "") ∈ valid :=
                  (contains_iff valid _).mp hb.1
                have hp2 : ((rel.person2.bind (·.resourceId)).getD "") ∈ valid :=
                  (contains_iff valid _).mp hb.2
                refine ⟨?_, ?_, ?_⟩
                · split
                  · exact Or.inl ⟨_, rfl⟩
                  · exact Or.inr ⟨_, _, rfl⟩
                · intro x hx
                  split at hx
                  · rw [List.mem_singleton.mp hx]; exact hp1
                  · rcases List.mem_cons.mp hx with hx1 | hx1
                    · rw [hx1]; exact hp1
                    · rw [List.mem_singleton.mp hx1]; exact hp2
                · intro x hx; cases hx
            · rw [List.map_append]
              simp only [List.map_cons, List.map_nil]
              rw [List.nodup_append]
              refine ⟨h3, List.nodup_singleton _, ?_⟩
              intro a ha hb
              rw [List.mem_singleton.mp hb] at ha
              rw [Bool.not_eq_true] at hnew
              rw [← mapHas_iff_keymem] at ha
              rw [hnew] at ha
              cases ha
        · exact ⟨h1, h2, h3⟩
    · exact ⟨h1, h2, h3⟩

theorem attachChildren_wf (valid : List String)
    (ctp : List (String × List String)) (fams : List (String × FamilyEntry))
    (hctp : ∀ e ∈ ctp, ctpWF valid e)
    (hfam : ∀ e ∈ fams, famWF valid e.2)
    (hnd : (fams.map (·.1)).Nodup) :
    (∀ e ∈ attachChildren ctp fams, famWF valid e.2) ∧
    ((attachChildren ctp fams).map (·.1)).Nodup := by
  unfold attachChildren
  refine foldl_inv (fun (fams' : List (String × FamilyEntry)) =>
      (∀ e ∈ fams', famWF valid e.2) ∧ (fams'.map (·.1)).Nodup)
    _ ctp fams ⟨hfam, hnd⟩ ?_
  intro acc entry hentry hP
  obtain ⟨hA, hN⟩ := hP
  have hwf := hctp entry hentry
  dsimp only
  have hstep : ∀ (famKey : String) (dflt : FamilyEntry),
      famWF valid dflt →
      ((∀ e ∈ mapSet acc famKey
          { (mapGet? acc famKey).getD dflt with
            children := ((mapGet? acc famKey).getD dflt).children ++
              [entry.1] } , famWF valid e.2) ∧
        ((mapSet acc famKey
          { (mapGet? acc famKey).getD dflt with
            children := ((mapGet? acc famKey).getD dflt).children ++
              [entry.1] }).map (·.1)).Nodup) := by
    intro famKey dflt hdflt
    have hbasewf : famWF valid ((mapGet? acc famKey).getD dflt) := by
      cases hget : mapGet? acc famKey with
      | none => exact hdflt
      | some fam => exact hA _ (mapGet?_mem hget)
    constructor
    · intro e he
      rcases mapSet_mem he with he1 | he1
      · exact hA e he1
      · rw [he1]
        refine ⟨hbasewf.1, hbasewf.2.1, ?_⟩
        intro x hx
        rcases List.mem_append.mp hx with hx1 | hx1
        · exact hbasewf.2.2 x hx1
        · rw [List.mem_singleton.mp hx1]
          exact hwf.1
    · cases hhas : mapHas acc famKey with
      | true => rw [mapSet_keys_of_has _ hhas]; exact hN
      | false =>
        rw [mapSet_keys_of_not_has _ hhas]
        rw [List.nodup_append]
        refine ⟨hN, List.nodup_singleton _, ?_⟩
        intro a ha hb
        rw [List.mem_singleton.mp hb] at ha
        rw [← mapHas_iff_keymem] at ha
        rw [hhas] at ha
        cases ha
  split
  · -- two or more parents
    rename_i p0 p1 rest hps
    refine hstep _ _ ?_
    refine ⟨Or.inr ⟨_, _, rfl⟩, ?_, ?_⟩
    · intro x hx
      rcases List.mem_cons.mp hx with hx1 | hx1
      · rw [hx1]; exact hwf.2.2 p0 (by rw [hps]; exact List.mem_cons_self _ _)
      · rw [List.mem_singleton.mp hx1]
        exact hwf.2.2 p1 (by
          rw [hps]
          exact List.mem_cons_of_mem _ (List.mem_cons_self _ _))
    · intro x hx; cases hx
  · -- exactly one parent
    rename_i p0 hps
    refine hstep _ _ ?_
    refine ⟨Or.inl ⟨_, rfl⟩, ?_, ?_⟩
    · intro x hx
      rw [List.mem_singleton.mp hx]
      exact hwf.2.2 p0 (by rw [hps]; exact List.mem_cons_self _ _)
    · intro x hx; cases hx
  · -- no parents (cannot happen, entry untouched)
    exact ⟨hA, hN⟩

theorem mapSet_has_iff {V : Type} (m : List (String × V)) (k : String) (v : V)
    (x : String) :
    mapHas (mapSet m k v) x = true ↔ (mapHas m x = true ∨ x = k) := by
  cases hhas : mapHas m k with
  | true =>
    rw [mapHas_iff_keymem, mapSet_keys_of_has _ hhas, ← mapHas_iff_keymem]
    constructor
    · exact Or.inl
    · rintro (h | h)
      · exact h
      · rw [h]; exact hhas
  | false =>
    rw [mapHas_iff_keymem, mapSet_keys_of_not_has _ hhas]
    constructor
    · intro h
      rcases List.mem_append.mp h with h1 | h1
      · exact Or.inl ((mapHas_iff_keymem m x).mpr h1)
      · exact Or.inr (List.mem_singleton.mp h1)
    · rintro (h | h)
      · exact List.mem_append_left _ ((mapHas_iff_keymem m x).mp h)
      · exact List.mem_append_right _ (List.mem_singleton.mpr h)

theorem buildPersonIdMap_has (persons : List EnhancedPerson) (x : String) :
    mapHas (buildPersonIdMap persons) x = true ↔ x ∈ persons.map (·.id) := by
  unfold buildPersonIdMap
  suffices h : ∀ (m : List (String × String)) (n : Nat),
      mapHas ((persons.foldl (fun acc person =>
        (mapSet acc.1 person.id ("@I" ++ toString (acc.2 + 1) ++ "@"),
          acc.2 + 1)) (m, n)).1) x = true ↔
      (mapHas m x = true ∨ x ∈ persons.map (·.id)) by
    rw [h [] 0]
    simp [mapHas]
  induction persons with
  | nil => intro m n; simp
  | cons p ps ih =>
    intro m n
    simp only [List.foldl_cons]
    rw [ih]
    rw [mapSet_has_iff]
    simp only [List.map_cons, List.mem_cons]
    constructor
    · rintro ((h | h) | h)
      · exact Or.inl h
      · exact Or.inr (Or.inl h)
      · exact Or.inr (Or.inr h)
    · rintro (h | h | h)
      · exact Or.inl (Or.inl h)
      · exact Or.inl (Or.inr h)
      · exact Or.inr h

theorem famChildLines_length {pim : List (String × String)}
    {children : List String}
    (h : ∀ c ∈ children, mapHas pim c = true) :
    (famChildLines pim children).length = children.length := by
  unfold famChildLines
  suffices hh : ∀ acc : List String,
      (children.foldl (fun acc2 childId =>
        match mapGet? pim childId with
        | some cg => acc2 ++ ["1 CHIL " ++ cg]
        | none => acc2) acc).length = acc.length + children.length by
    simpa using hh []
  induction children with
  | nil => intro acc; simp
  | cons c cs ih =>
    intro acc
    simp only [List.foldl_cons]
    rcases mapGet?_isSome_of_has (h c (List.mem_cons_self _ _)) with ⟨g, hg⟩
    rw [hg]
    rw [ih (fun x hx => h x (List.mem_cons_of_mem _ hx))]
    simp
    omega

theorem famSpouseLines_single (ppl : List EnhancedPerson)
    (pim : List (String × String)) (a : String) :
    (famSpouseLines ppl pim [a]).length = 1 := by
  unfold famSpouseLines
  split
  · rename_i heq; simp at heq
  · rename_i sp1 heq
    split <;> rfl
  · rename_i h1 h2
    exact absurd rfl (h2 a)

theorem famSpouseLines_pair (ppl : List EnhancedPerson)
    {pim : List (String × String)} {a b : String}
    (ha : mapHas pim a = true) (hb : mapHas pim b = true) :
    (famSpouseLines ppl pim [a, b]).length = 2 := by
  rcases mapGet?_isSome_of_has ha with ⟨ga, hga⟩
  rcases mapGet?_isSome_of_has hb with ⟨gb, hgb⟩
  unfold famSpouseLines
  split
  · rename_i sp1 sp2 heq
    have h1 : a = sp1 := by injection heq
    have h2 : b = sp2 := by
      have := heq
      injection this with ha2 hb2
      injection hb2
    subst h1; subst h2
    rw [hga, hgb]
    dsimp only
    split <;> rfl
  · rename_i heq; simp at heq
  · rename_i h1 h2
    exact absurd rfl (h1 a b)

/-- Inversion: every emitted FAM record comes from a kept family entry. -/
theorem famRecordsOf_mem {pd : EnhancedPedigreeData}
    {opts : GedcomConversionOptions} {rec : FamRecord}
    (h : rec ∈ famRecordsOf pd opts) :
    ∃ i entry, entry ∈ familiesOf pd ∧
      famKeep (personIdMapOf pd) (connectableOf pd opts)
        (opts.allowOrphanFamilies == some true) entry = true ∧
      rec = famRecordFor (personsOf pd) (personIdMapOf pd)
        (connectableOf pd opts) (allRelationshipsOf pd)
        (opts.allowOrphanFamilies == some true) (1 + i) entry := by
  rw [famRecordsOf, famEmit_eq] at h
  rcases enumFrom_mem h with ⟨i, entry, hent, hrec⟩
  rcases List.mem_filter.mp hent with ⟨hmem, hkeep⟩
  exact ⟨i, entry, hmem, hkeep, hrec⟩

/-! ## Claim C2: structural validity of emitted FAM records -/

/-- C2: no emitted FAM record has zero spouse lines, none has exactly one
spouse line together with zero child lines, and a family meeting either
suppression condition never produces a FAM record. -/
theorem c2_fam_structural_validity (pd : EnhancedPedigreeData)
    (opts : GedcomConversionOptions) :
    (∀ rec ∈ famRecordsOf pd opts,
        1 ≤ rec.spouseLines.length ∧
        ¬(rec.spouseLines.length = 1 ∧ rec.childLines.length = 0)) ∧
    (∀ key fam, (key, fam) ∈ familiesOf pd →
        ((fam.spouses.filter
            (fun pid => mapHas (personIdMapOf pd) pid)).length = 0 ∨
          ((fam.spouses.filter
            (fun pid => mapHas (personIdMapOf pd) pid)).length = 1 ∧
            fam.children.length = 0)) →
        ∀ rec ∈ famRecordsOf pd opts, rec.key ≠ key) := by
  have hwfAll := processRelationships_wf (allRelationshipsOf pd)
    (validPersonIdsOf pd)
  have hWF : ∀ e ∈ familiesOf pd, famWF (validPersonIdsOf pd) e.2 :=
    (attachChildren_wf (validPersonIdsOf pd) (childToParentsOf pd) _
      hwfAll.1 hwfAll.2.1 hwfAll.2.2).1
  have hND : ((familiesOf pd).map (·.1)).Nodup :=
    (attachChildren_wf (validPersonIdsOf pd) (childToParentsOf pd) _
      hwfAll.1 hwfAll.2.1 hwfAll.2.2).2
  have hhas : ∀ x ∈ validPersonIdsOf pd,
      mapHas (personIdMapOf pd) x = true := fun x hx =>
    (buildPersonIdMap_has (personsOf pd) x).mpr hx
  constructor
  · intro rec hrec
    rcases famRecordsOf_mem hrec with ⟨i, entry, hmem, hkeep, hrecEq⟩
    have hfw := hWF entry hmem
    have hfilter : entry.2.spouses.filter
        (fun pid => mapHas (personIdMapOf pd) pid) = entry.2.spouses :=
      List.filter_eq_self.mpr (fun a ha => hhas a (hfw.2.1 a ha))
    have hsl : rec.spouseLines =
        famSpouseLines (personsOf pd) (personIdMapOf pd) entry.2.spouses := by
      rw [hrecEq]; rfl
    have hcl : rec.childLines =
        famChildLines (personIdMapOf pd) entry.2.children := by
      rw [hrecEq]; rfl
    have hclen : rec.childLines.length = entry.2.children.length := by
      rw [hcl]
      exact famChildLines_length (fun c hc => hhas c (hfw.2.2 c hc))
    simp only [famKeep, Bool.and_eq_true, Bool.not_eq_true'] at hkeep
    rw [hfilter] at hkeep
    rcases hfw.1 with ⟨a, hsp⟩ | ⟨a, b, hsp⟩
    · have hlen : rec.spouseLines.length = 1 := by
        rw [hsl, hsp]
        exact famSpouseLines_single _ _ _
      refine ⟨by omega, ?_⟩
      rintro ⟨-, hch0⟩
      have h2 := hkeep.1.2
      rw [hsp] at h2
      simp only [List.length_singleton] at h2
      rw [hclen] at hch0
      simp [hch0] at h2
    · have hlen : rec.spouseLines.length = 2 := by
        rw [hsl, hsp]
        exact famSpouseLines_pair _
          (hhas a (hfw.2.1 a (by rw [hsp]; exact List.mem_cons_self _ _)))
          (hhas b (hfw.2.1 b (by
            rw [hsp]
            exact List.mem_cons_of_mem _ (List.mem_cons_self _ _))))
      exact ⟨by omega, by rintro ⟨h1, -⟩; omega⟩
  · intro key fam hmem hbad rec hrec hkeyeq
    rcases famRecordsOf_mem hrec with ⟨i, entry, hent, hkeep, hrecEq⟩
    have hkey : rec.key = entry.1 := by rw [hrecEq]; rfl
    have hent' : (key, entry.2) ∈ familiesOf pd := by
      have hk : key = entry.1 := by rw [← hkeyeq]; exact hkey
      rw [hk]
      simpa using hent
    have hfameq : fam = entry.2 := assoc_unique hND hmem hent'
    simp only [famKeep, Bool.and_eq_true, Bool.not_eq_true'] at hkeep
    rw [← hfameq] at hkeep
    rcases hbad with hb | hb
    · have := hkeep.1.1
      rw [hb] at this
      simp at this
    · have := hkeep.1.2
      rw [hb.1] at this
      simp [hb.2] at this

theorem famKeep_allow_mono {pim : List (String × String)} {conn : List String}
    {e : String × FamilyEntry} (h : famKeep pim conn false e = true) :
    famKeep pim conn true e = true := by
  simp only [famKeep, Bool.and_eq_true] at h ⊢
  exact ⟨h.1, by simp⟩

theorem indiEmit_allow_mono {pim : List (String × String)}
    {ptf : List (String × List String)} {ofk : List String}
    {links notes : Bool} {env : FsEnvironment} {keys : List String}
    {p : EnhancedPerson} {r : String × List String}
    (h : indiEmit pim ptf ofk false links notes env keys p = some r) :
    indiEmit pim ptf ofk true links notes env keys p = some r := by
  cases hget : mapGet? pim p.id with
  | none => simp only [indiEmit, hget] at h; cases h
  | some gid =>
    simp only [indiEmit, hget] at h ⊢
    simp only [Bool.not_false, Bool.true_and, Bool.not_true, Bool.false_and,
      if_false, Bool.false_eq_true, reduceIte] at h ⊢
    split at h
    · cases h
    · exact h

/-- C7: for a fixed input, the person set and the family set emitted with
`allowOrphanFamilies` enabled are supersets of those emitted with it
disabled. -/
theorem c7_allowOrphanFamilies_superset (pd : EnhancedPedigreeData)
    (opts : GedcomConversionOptions) :
    (∀ gid ∈ (indiRecordsOf pd
        { opts with allowOrphanFamilies := some false }).map (·.1),
      gid ∈ (indiRecordsOf pd
        { opts with allowOrphanFamilies := some true }).map (·.1)) ∧
    (∀ key ∈ (famRecordsOf pd
        { opts with allowOrphanFamilies := some false }).map (·.key),
      key ∈ (famRecordsOf pd
        { opts with allowOrphanFamilies := some true }).map (·.key)) := by
  constructor
  · have hsub : (indiRecordsOf pd
        { opts with allowOrphanFamilies := some false }).Sublist
        (indiRecordsOf pd { opts with allowOrphanFamilies := some true }) := by
      unfold indiRecordsOf
      exact filterMap_sublist_mono _ _ _
        (fun a r h => indiEmit_allow_mono h)
    exact fun gid hg => (hsub.map (·.1)).subset hg
  · intro key hk
    rw [famRecordsOf, famEmit_keys] at hk ⊢
    rcases List.mem_map.mp hk with ⟨entry, hent, hkey⟩
    rcases List.mem_filter.mp hent with ⟨hmem, hkeep⟩
    exact List.mem_map.mpr ⟨entry,
      List.mem_filter.mpr ⟨hmem, famKeep_allow_mono hkeep⟩, hkey⟩

/-! ## Claim C5: HUSB/WIFE orientation in two-spouse FAM records -/

/-- A couple relationship between two persons with no gender data. -/
def c5Rel : Relationship :=
  { id := "r1"
    type := some "http://gedcomx.org/Couple"
    person1 := some { resourceId := some "A" }
    person2 := some { resourceId := some "B" } }

def c5Pd : EnhancedPedigreeData :=
  { persons := some [{ id := "A" }, { id := "B" }]
    relationships := some [c5Rel] }

def c5Opts : GedcomConversionOptions := { allowOrphanFamilies := some true }

/-- The single FAM record the converter emits for `c5Pd`. -/
def c5Fam : FamRecord :=
  { key := "A-B"
    famId := "@F1@"
    spouses := ["A", "B"]
    orphanTag := ["1 _IS_ORPHAN_FAMILY Y"]
    spouseLines := ["1 HUSB @I2@", "1 WIFE @I1@"]
    marriageLines := []
    childLines := [] }

/-- C5 (counterexample): it is false that, whenever both spouses of an
emitted two-spouse FAM record have unknown gender, the first spouse is
emitted as HUSB and the second as WIFE — with both genders unknown the code
takes the `else` branch and emits the second spouse as HUSB. -/
theorem c5_unknown_genders_not_first_husb :
    ¬ (∀ (pd : EnhancedPedigreeData) (opts : GedcomConversionOptions)
        (rec : FamRecord), rec ∈ famRecordsOf pd opts →
        ∀ sp1 sp2 g1 g2, rec.spouses = [sp1, sp2] →
          mapGet? (personIdMapOf pd) sp1 = some g1 →
          mapGet? (personIdMapOf pd) sp2 = some g2 →
          famGenderOf (personsOf pd) sp1 = none →
          famGenderOf (personsOf pd) sp2 = none →
          rec.spouseLines = ["1 HUSB " ++ g1, "1 WIFE " ++ g2]) := by
  intro h
  have hmem : c5Fam ∈ famRecordsOf c5Pd c5Opts := by decide
  have hc := h c5Pd c5Opts c5Fam hmem "A" "B" "@I1@" "@I2@"
    rfl rfl rfl rfl rfl
  exact absurd hc (by decide)

/-- C5 (amended): in every emitted two-spouse FAM record, the first spouse
is HUSB and the second WIFE exactly when the first spouse's gender is male
or the second spouse's gender is female; in every other case (including
both genders unknown) the second spouse is HUSB and the first is WIFE. -/
theorem c5_husb_wife_orientation (pd : EnhancedPedigreeData)
    (opts : GedcomConversionOptions) (rec : FamRecord)
    (h : rec ∈ famRecordsOf pd opts) (sp1 sp2 : String)
    (hsp : rec.spouses = [sp1, sp2]) :
    rec.spouseLines =
      if famGenderOf (personsOf pd) sp1 == some "M" ||
          famGenderOf (personsOf pd) sp2 == some "F" then
        (match mapGet? (personIdMapOf pd) sp1 with
         | some g => ["1 HUSB " ++ g] | none => []) ++
        (match mapGet? (personIdMapOf pd) sp2 with
         | some g => ["1 WIFE " ++ g] | none => [])
      else
        (match mapGet? (personIdMapOf pd) sp2 with
         | some g => ["1 HUSB " ++ g] | none => []) ++
        (match mapGet? (personIdMapOf pd) sp1 with
         | some g => ["1 WIFE " ++ g] | none => []) := by
  rcases famRecordsOf_mem h with ⟨i, entry, hmem, hkeep, hrecEq⟩
  have hspE : entry.2.spouses = [sp1, sp2] := by
    rw [hrecEq] at hsp; exact hsp
  have hsl : rec.spouseLines =
      famSpouseLines (personsOf pd) (personIdMapOf pd) entry.2.spouses := by
    rw [hrecEq]; rfl
  rw [hsl, hspE]
  rfl

/-- Witness for C5 at the concrete input `c5Pd`. -/
theorem c5_husb_wife_orientation_witness :
    c5Fam ∈ famRecordsOf c5Pd c5Opts ∧ c5Fam.spouses = ["A", "B"] ∧
    c5Fam.spouseLines =
      (if famGenderOf (personsOf c5Pd) "A" == some "M" ||
          famGenderOf (personsOf c5Pd) "B" == some "F" then
        (match mapGet? (personIdMapOf c5Pd) "A" with
         | some g => ["1 HUSB " ++ g] | none => []) ++
        (match mapGet? (personIdMapOf c5Pd) "B" with
         | some g => ["1 WIFE " ++ g] | none => [])
      else
        (match mapGet? (personIdMapOf c5Pd) "B" with
         | some g => ["1 HUSB " ++ g] | none => []) ++
        (match mapGet? (personIdMapOf c5Pd) "A" with
         | some g => ["1 WIFE " ++ g] | none => [])) :=
  ⟨by decide, rfl,
    c5_husb_wife_orientation c5Pd c5Opts c5Fam (by decide) "A" "B" rfl⟩

/-! ## Claim C4: identifier assignment -/

def decDigit (c : Char) : Nat := c.toNat - 48

theorem decDigit_digitChar {m : Nat} (h : m < 10) :
    decDigit (Nat.digitChar m) = m := by
  interval_cases m <;> rfl

theorem decVal_toDigitsCore (fuel : Nat) :
    ∀ (n : Nat) (acc : List Char), n < fuel →
      (Nat.toDigitsCore 10 fuel n acc).foldl (fun a c => a * 10 + decDigit c) 0 =
        acc.foldl (fun a c => a * 10 + decDigit c) n := by
  induction fuel with
  | zero => intro n acc h; omega
  | succ fuel ih =>
    intro n acc h
    simp only [Nat.toDigitsCore]
    split
    · rename_i hdiv
      simp only [List.foldl_cons]
      rw [decDigit_digitChar (Nat.mod_lt _ (by norm_num))]
      have he : 0 * 10 + n % 10 = n := by omega
      rw [he]
    · rename_i hdiv
      have hlt : n / 10 < fuel := by omega
      rw [ih (n / 10) _ hlt]
      simp only [List.foldl_cons]
      rw [decDigit_digitChar (Nat.mod_lt _ (by norm_num))]
      have he : n / 10 * 10 + n % 10 = n := by omega
      rw [he]

theorem natRepr_injective : Function.Injective Nat.repr := by
  intro a b h
  have hdata : Nat.toDigits 10 a = Nat.toDigits 10 b := by
    have hd := congrArg String.data h
    simpa [Nat.repr, List.asString] using hd
  have ha := decVal_toDigitsCore (a + 1) a [] (Nat.lt_succ_self a)
  have hb := decVal_toDigitsCore (b + 1) b [] (Nat.lt_succ_self b)
  simp only [List.foldl_nil] at ha hb
  rw [show Nat.toDigitsCore 10 (a + 1) a [] = Nat.toDigits 10 a from rfl] at ha
  rw [show Nat.toDigitsCore 10 (b + 1) b [] = Nat.toDigits 10 b from rfl] at hb
  rw [← ha, ← hb, hdata]

theorem idWrap_inj (p s : String) {a b : Nat}
    (h : p ++ toString a ++ s = p ++ toString b ++ s) : a = b := by
  have hd := congrArg String.data h
  simp only [String.data_append, List.append_assoc] at hd
  have h1 := List.append_cancel_left hd
  have h2 := List.append_cancel_right h1
  exact natRepr_injective (String.ext h2)



theorem enumFrom_map_range {α β γ : Type} (f : Nat → α → β) (g : β → γ)
    (h : Nat → γ) (hc : ∀ n x, g (f n x) = h n) :
    ∀ (l : List α) (n : Nat),
      (enumFrom f n l).map g = (List.range l.length).map (fun i => h (n + i)) := by
  intro l
  induction l with
  | nil => intro n; rfl
  | cons x xs ih =>
    intro n
    simp only [enumFrom, List.map_cons, List.length_cons,
      List.range_succ_eq_map, List.map_map]
    refine congrArg₂ List.cons ?_ ?_
    · rw [hc]
      exact congrArg h (by omega)
    · rw [ih (n + 1)]
      refine List.map_congr_left fun i hi => ?_
      simp only [Function.comp_apply]
      exact congrArg h (by omega)

theorem mapHas_append {V : Type} (m₁ m₂ : List (String × V)) (k : String) :
    mapHas (m₁ ++ m₂) k = (mapHas m₁ k || mapHas m₂ k) := by
  simp [mapHas, List.any_append]

theorem buildPersonIdMap_nodup_eq (persons : List EnhancedPerson)
    (hnd : (persons.map (·.id)).Nodup) :
    buildPersonIdMap persons =
      enumFrom (fun k p => (p.id, "@I" ++ toString k ++ "@")) 1 persons := by
  unfold buildPersonIdMap
  suffices h : ∀ (ps : List EnhancedPerson) (acc : List (String × String)) (n : Nat),
      (ps.map (·.id)).Nodup →
      (∀ p ∈ ps, mapHas acc p.id = false) →
      (ps.foldl (fun (acc : List (String × String) × Nat) person =>
        (mapSet acc.1 person.id ("@I" ++ toString (acc.2 + 1) ++ "@"), acc.2 + 1))
        (acc, n)).1 =
      acc ++ enumFrom (fun k p => (p.id, "@I" ++ toString k ++ "@")) (n + 1) ps by
    have := h persons [] 0 hnd (fun p _ => rfl)
    simpa using this
  intro ps
  induction ps with
  | nil => intro acc n _ _; simp [enumFrom]
  | cons x xs ih =>
    intro acc n hnd2 hfresh
    simp only [List.map_cons, List.nodup_cons] at hnd2
    simp only [List.foldl_cons]
    have hx : mapHas acc x.id = false := hfresh x (List.mem_cons_self _ _)
    have hset : mapSet acc x.id ("@I" ++ toString (n + 1) ++ "@") =
        acc ++ [(x.id, "@I" ++ toString (n + 1) ++ "@")] := by
      unfold mapSet
      rw [hx]
      simp
    rw [hset]
    rw [ih (acc ++ [(x.id, "@I" ++ toString (n + 1) ++ "@")]) (n + 1) hnd2.2 ?_]
    · simp [enumFrom, List.append_assoc]
    · intro p hp
      rw [mapHas_append]
      have h1 : mapHas acc p.id = false := hfresh p (List.mem_cons_of_mem _ hp)
      have h2 : mapHas [(x.id, "@I" ++ toString (n + 1) ++ "@")] p.id = false := by
        simp only [mapHas, List.any_cons, List.any_nil, Bool.or_false]
        have : x.id ≠ p.id := by
          intro he
          exact hnd2.1 (List.mem_map.mpr ⟨p, hp, he.symm⟩)
        simpa using fun hc => this.symm hc.symm
      rw [h1, h2]
      rfl

theorem mapGet?_of_mem_nodup {V : Type} {m : List (String × V)} {k : String}
    {v : V} (hnd : (m.map (·.1)).Nodup) (hmem : (k, v) ∈ m) :
    mapGet? m k = some v := by
  have hhas : mapHas m k = true := by
    simp only [mapHas, List.any_eq_true]
    exact ⟨(k, v), hmem, by simp⟩
  rcases mapGet?_isSome_of_has hhas with ⟨v', hv'⟩
  have := assoc_unique hnd (mapGet?_mem hv') hmem
  rw [hv', this]

theorem filterMap_map_proj_sublist {α β γ : Type} (f : α → Option β)
    (g : α → Option γ) (proj : β → γ)
    (h : ∀ a b, f a = some b → g a = some (proj b)) :
    ∀ l : List α, ((l.filterMap f).map proj).Sublist (l.filterMap g) := by
  intro l
  induction l with
  | nil => simp
  | cons x xs ih =>
    cases hf : f x with
    | none =>
      cases hg : g x with
      | none => simpa [List.filterMap_cons, hf, hg] using ih
      | some c =>
        simp only [List.filterMap_cons, hf, hg]
        exact ih.cons c
    | some b =>
      have hg := h x b hf
      simp only [List.filterMap_cons, hf, hg, List.map_cons]
      exact ih.cons₂ (proj b)

theorem indiEmit_fst {pim : List (String × String)}
    {ptf : List (String × List String)} {ofk : List String}
    {allow links notes : Bool} {env : FsEnvironment} {keys : List String}
    {p : EnhancedPerson} {r : String × List String}
    (h : indiEmit pim ptf ofk allow links notes env keys p = some r) :
    mapGet? pim p.id = some r.1 := by
  cases hget : mapGet? pim p.id with
  | none => simp only [indiEmit, hget] at h; cases h
  | some gid =>
    simp only [indiEmit, hget] at h
    split at h
    · cases h
    · cases h
      rfl



theorem head0_append (t v : String) (c : Char) (rest : List Char)
    (h : t.data = c :: rest) : (t ++ v).data.head? = some c := by
  rw [String.data_append, h]
  rfl

theorem filter_head0_srcBlock (n : Nat) (src : SourceDescription) :
    (srcBlock n src).filter (fun l => l.data.head? == some '0') =
      ["0 " ++ ("@S" ++ toString n ++ "@") ++ " SOUR"] := by
  have hdr : (("0 " ++ ("@S" ++ toString n ++ "@") ++ " SOUR").data.head? ==
      some '0') = true := by
    have := head0_append "0 " ("@S" ++ toString n ++ "@") '0' [' '] rfl
    rw [show "0 " ++ ("@S" ++ toString n ++ "@") ++ " SOUR" =
      "0 " ++ (("@S" ++ toString n ++ "@") ++ " SOUR") from by
        rw [String.append_assoc]]
    rw [head0_append "0 " _ '0' [' '] rfl]
    rfl
  have h1 : ∀ (pre v : String), pre.data.head? = some '1' →
      (((pre ++ v).data.head? == some '0') = false) := by
    intro pre v hp
    have : pre.data = '1' :: pre.data.tail := by
      cases hd : pre.data with
      | nil => rw [hd] at hp; cases hp
      | cons a as => rw [hd] at hp; cases hp; rfl
    rw [head0_append pre v '1' pre.data.tail this]
    rfl
  have htitl : (("1 TITL " ++ srcTitle src).data.head? == some '0') = false :=
    h1 "1 TITL " _ rfl
  have htext : (srcText src).filter (fun l => l.data.head? == some '0') = [] := by
    unfold srcText
    split
    · split
      · simp [List.filter, h1 "1 TEXT " _ rfl]
      · rfl
    · rfl
  have hwww : (srcWww src).filter (fun l => l.data.head? == some '0') = [] := by
    unfold srcWww
    split
    · split
      · simp [List.filter, h1 "1 WWW " _ rfl]
      · rfl
    · rfl
  have hnote : (srcNote src).filter (fun l => l.data.head? == some '0') = [] := by
    unfold srcNote
    split
    · split
      · simp [List.filter, h1 "1 NOTE Resource Type: " _ rfl]
      · rfl
    · rfl
  simp only [srcBlock, List.filter_append, htext, hwww, hnote]
  simp [List.filter, hdr, htitl]

theorem sourceRecordLines_acc :
    ∀ (sm : List (String × SourceDescription)) (acc : List String) (n : Nat),
      (sm.foldl srcStep (acc, n)).1 =
        acc ++ (enumFrom (fun k e => srcBlock k e.2) n sm).flatten := by
  intro sm
  induction sm with
  | nil => intro acc n; simp [enumFrom]
  | cons x xs ih =>
    intro acc n
    simp only [List.foldl_cons]
    rw [show srcStep (acc, n) x = (acc ++ srcBlock n x.2, n + 1) from rfl]
    rw [ih (acc ++ srcBlock n x.2) (n + 1)]
    simp [enumFrom, List.append_assoc]

theorem sourceRecordLines_filter (sm : List (String × SourceDescription)) :
    (sourceRecordLines sm).filter (fun l => l.data.head? == some '0') =
      (List.range sm.length).map
        (fun i => "0 " ++ ("@S" ++ toString (i + 1) ++ "@") ++ " SOUR") := by
  rw [sourceRecordLines, sourceRecordLines_acc sm [] 1, List.nil_append]
  suffices h : ∀ (l : List (String × SourceDescription)) (n : Nat),
      ((enumFrom (fun k e => srcBlock k e.2) n l).flatten).filter
        (fun l => l.data.head? == some '0') =
      (List.range l.length).map
        (fun i => "0 " ++ ("@S" ++ toString (n + i) ++ "@") ++ " SOUR") by
    rw [h sm 1]
    exact List.map_congr_left fun i hi => by rw [Nat.add_comm]
  intro l
  induction l with
  | nil => intro n; rfl
  | cons x xs ih =>
    intro n
    simp only [enumFrom, List.flatten_cons, List.filter_append,
      filter_head0_srcBlock, ih (n + 1), List.length_cons,
      List.range_succ_eq_map, List.map_cons, List.map_map]
    refine congrArg₂ List.cons (by rw [Nat.add_zero]) ?_
    refine List.map_congr_left fun i hi => ?_
    simp only [Function.comp_apply]
    rw [show n + 1 + i = n + (i + 1) from by omega]




def c4Rel : Relationship :=
  { id := "r1"
    type := some "http://gedcomx.org/Couple"
    person1 := some { resourceId := some "B" }
    person2 := some { resourceId := some "C" } }

def c4Pd : EnhancedPedigreeData :=
  { persons := some [{ id := "A" }, { id := "B" }, { id := "C" }, { id := "D" }]
    relationships := some [c4Rel] }

theorem enumFrom_length {α β : Type} (f : Nat → α → β) :
    ∀ (l : List α) (n : Nat), (enumFrom f n l).length = l.length := by
  intro l
  induction l with
  | nil => intro n; rfl
  | cons x xs ih => intro n; simp [enumFrom, ih (n + 1)]

theorem idTag_inj (p s : String) :
    Function.Injective (fun i : Nat => p ++ toString (i + 1) ++ s) := by
  intro a b h
  have := idWrap_inj p s h
  omega

theorem personIdMap_keys {pd : EnhancedPedigreeData}
    (hnd : ((personsOf pd).map (·.id)).Nodup) :
    (personIdMapOf pd).map (·.1) = (personsOf pd).map (·.id) := by
  rw [personIdMapOf, buildPersonIdMap_nodup_eq _ hnd]
  exact enumFrom_map_proj
    (fun k (p : EnhancedPerson) => (p.id, "@I" ++ toString k ++ "@"))
    (·.1) (·.id) (fun n x => rfl) 1 _

theorem personIdMap_values {pd : EnhancedPedigreeData}
    (hnd : ((personsOf pd).map (·.id)).Nodup) :
    (personIdMapOf pd).map (·.2) =
      (List.range (personsOf pd).length).map
        (fun i => "@I" ++ toString (i + 1) ++ "@") := by
  rw [personIdMapOf, buildPersonIdMap_nodup_eq _ hnd]
  have h := enumFrom_map_range
    (fun k (p : EnhancedPerson) => (p.id, "@I" ++ toString k ++ "@"))
    (·.2) (fun n => "@I" ++ toString n ++ "@") (fun n x => rfl)
    (personsOf pd) 1
  rw [h]
  exact List.map_congr_left fun i hi => by rw [Nat.add_comm]

theorem indiIds_sublist_values {pd : EnhancedPedigreeData}
    (opts : GedcomConversionOptions)
    (hnd : ((personsOf pd).map (·.id)).Nodup) :
    ((indiRecordsOf pd opts).map (·.1)).Sublist
      ((personIdMapOf pd).map (·.2)) := by
  have hsub : ((indiRecordsOf pd opts).map (·.1)).Sublist
      ((personsOf pd).filterMap (fun p => mapGet? (personIdMapOf pd) p.id)) := by
    rw [indiRecordsOf]
    exact filterMap_map_proj_sublist _ _ (·.1)
      (fun a b h => indiEmit_fst h) (personsOf pd)
  have hkeysnd : ((personIdMapOf pd).map (·.1)).Nodup := by
    rw [personIdMap_keys hnd]; exact hnd
  have heq : (personsOf pd).filterMap (fun p => mapGet? (personIdMapOf pd) p.id) =
      (personIdMapOf pd).map (·.2) := by
    have h1 : (personsOf pd).filterMap (fun p => mapGet? (personIdMapOf pd) p.id) =
        ((personsOf pd).map (·.id)).filterMap
          (fun k => mapGet? (personIdMapOf pd) k) := by
      rw [List.filterMap_map]
      rfl
    rw [h1, ← personIdMap_keys hnd, List.filterMap_map]
    refine Eq.trans (List.filterMap_congr (fun e he => ?_))
      (congrFun (List.filterMap_eq_map (·.2)) _)
    exact mapGet?_of_mem_nodup hkeysnd (by simpa using he)
  rw [← heq]
  exact hsub

/-- C4 (counterexample): it is false that for every input the emitted INDI
identifiers form the gapless sequence `@I1@ … @Ik@` — persons receive their
ids before orphan filtering, so skipped persons leave gaps. -/
theorem c4_person_ids_not_gapless :
    ¬ (∀ (pd : EnhancedPedigreeData) (opts : GedcomConversionOptions),
        ∃ k, (indiRecordsOf pd opts).map (·.1) =
          (List.range k).map (fun i => "@I" ++ toString (i + 1) ++ "@")) := by
  intro h
  rcases h c4Pd {} with ⟨k, hk⟩
  have hids : (indiRecordsOf c4Pd {}).map (·.1) = ["@I1@", "@I4@"] := by decide
  rw [hids] at hk
  have hlen := congrArg List.length hk
  simp only [List.length_cons, List.length_nil, List.length_map,
    List.length_range] at hlen
  subst hlen
  exact absurd hk (by decide)

/-- C4 (amended): FAM ids are the gapless sequence `@F1@ … @Fm@` (hence
pairwise distinct); the level-0 source record headers are the gapless
sequence `0 @S1@ SOUR … 0 @Sk@ SOUR`; and whenever the input person ids are
distinct, person ids are assigned positionally as `@I1@ … @In@` over the
whole input list, so the emitted INDI ids are a (possibly gapped) sublist
of that sequence and are pairwise distinct. -/
theorem c4_identifier_assignment (pd : EnhancedPedigreeData)
    (opts : GedcomConversionOptions)
    (hnd : ((personsOf pd).map (·.id)).Nodup) :
    ((famRecordsOf pd opts).map (·.famId) =
      (List.range (famRecordsOf pd opts).length).map
        (fun i => "@F" ++ toString (i + 1) ++ "@")) ∧
    ((famRecordsOf pd opts).map (·.famId)).Nodup ∧
    ((sourceRecordLines (sourceMapOf pd)).filter
        (fun l => l.data.head? == some '0') =
      (List.range (sourceMapOf pd).length).map
        (fun i => "0 " ++ ("@S" ++ toString (i + 1) ++ "@") ++ " SOUR")) ∧
    ((personIdMapOf pd).map (·.2) =
      (List.range (personsOf pd).length).map
        (fun i => "@I" ++ toString (i + 1) ++ "@")) ∧
    ((indiRecordsOf pd opts).map (·.1)).Sublist
      ((personIdMapOf pd).map (·.2)) ∧
    ((indiRecordsOf pd opts).map (·.1)).Nodup := by
  have hfam : (famRecordsOf pd opts).map (·.famId) =
      (List.range (famRecordsOf pd opts).length).map
        (fun i => "@F" ++ toString (i + 1) ++ "@") := by
    rw [famRecordsOf, famEmit_eq]
    have h := enumFrom_map_range
      (famRecordFor (personsOf pd) (personIdMapOf pd) (connectableOf pd opts)
        (allRelationshipsOf pd) (opts.allowOrphanFamilies == some true))
      (·.famId) (fun n => "@F" ++ toString n ++ "@") (fun n x => rfl)
      ((familiesOf pd).filter (famKeep (personIdMapOf pd)
        (connectableOf pd opts) (opts.allowOrphanFamilies == some true))) 1
    rw [h, enumFrom_length]
    exact List.map_congr_left fun i hi => by rw [Nat.add_comm]
  have hfamnd : ((famRecordsOf pd opts).map (·.famId)).Nodup := by
    rw [hfam]
    exact List.Nodup.map (idTag_inj "@F" "@") (List.nodup_range _)
  have hvals := personIdMap_values hnd
  have hsub := indiIds_sublist_values opts hnd
  refine ⟨hfam, hfamnd, sourceRecordLines_filter _, hvals, hsub, ?_⟩
  exact hsub.nodup (by
    rw [hvals]
    exact List.Nodup.map (idTag_inj "@I" "@") (List.nodup_range _))

/-- Witness for C4 at the concrete input `c4Pd`: four persons with distinct
ids of which the middle two are suppressed as orphans. -/
theorem c4_identifier_assignment_witness :
    ((personsOf c4Pd).map (·.id)).Nodup ∧
    (((famRecordsOf c4Pd {}).map (·.famId) =
      (List.range (famRecordsOf c4Pd {}).length).map
        (fun i => "@F" ++ toString (i + 1) ++ "@")) ∧
    ((famRecordsOf c4Pd {}).map (·.famId)).Nodup ∧
    ((sourceRecordLines (sourceMapOf c4Pd)).filter
        (fun l => l.data.head? == some '0') =
      (List.range (sourceMapOf c4Pd).length).map
        (fun i => "0 " ++ ("@S" ++ toString (i + 1) ++ "@") ++ " SOUR")) ∧
    ((personIdMapOf c4Pd).map (·.2) =
      (List.range (personsOf c4Pd).length).map
        (fun i => "@I" ++ toString (i + 1) ++ "@")) ∧
    ((indiRecordsOf c4Pd {}).map (·.1)).Sublist
      ((personIdMapOf c4Pd).map (·.2)) ∧
    ((indiRecordsOf c4Pd {}).map (·.1)).Nodup) :=
  ⟨by decide, c4_identifier_assignment c4Pd {} (by decide)⟩

/-! ## Claim C3: monotone, downward-justified connectable set -/

/-- Why one member of the connectable set belongs there: it is a seed, a
spouse in a family another member of which is connectable, or a child of a
connectable parent — never a parent of a connectable child. -/
def connectJustified (seeds : List String) (ctp : List (String × List String))
    (fams : List (String × FamilyEntry)) (final : List String)
    (q : String) : Prop :=
  q ∈ seeds ∨
  (∃ e ∈ fams, q ∈ e.2.spouses ∧
    ((∃ sp ∈ e.2.spouses, sp ≠ q ∧ sp ∈ final) ∨
     (∃ c ∈ e.2.children, c ≠ q ∧ c ∈ final))) ∨
  (∃ e ∈ ctp, e.1 = q ∧ ∃ p ∈ e.2, p ≠ q ∧ p ∈ final)

theorem connectJustified_mono {seeds : List String}
    {ctp : List (String × List String)} {fams : List (String × FamilyEntry)}
    {s t : List String} {q : String} (hsub : s ⊆ t)
    (h : connectJustified seeds ctp fams s q) :
    connectJustified seeds ctp fams t q := by
  rcases h with h | ⟨e, he, hq, ⟨sp, hsp, hne, hmem⟩ | ⟨c, hc, hne, hmem⟩⟩ |
    ⟨e, he, hq, p, hp, hne, hmem⟩
  · exact Or.inl h
  · exact Or.inr (Or.inl ⟨e, he, hq, Or.inl ⟨sp, hsp, hne, hsub hmem⟩⟩)
  · exact Or.inr (Or.inl ⟨e, he, hq, Or.inr ⟨c, hc, hne, hsub hmem⟩⟩)
  · exact Or.inr (Or.inr ⟨e, he, hq, p, hp, hne, hsub hmem⟩)

/-- The whole set is justified, with witnesses inside the set itself. -/
def allJustified (seeds : List String) (ctp : List (String × List String))
    (fams : List (String × FamilyEntry)) (s : List String) : Prop :=
  ∀ q ∈ s, connectJustified seeds ctp fams s q

theorem subset_addSpousesOfConnectable (fams : List (String × FamilyEntry))
    (s : List String) : s ⊆ addSpousesOfConnectable fams s := by
  unfold addSpousesOfConnectable
  refine subset_foldl _ fams s ?_
  intro acc e
  dsimp only
  split
  · exact subset_foldl_insSet _ _
  · exact fun _ h => h

theorem subset_addChildrenOfConnectable (ctp : List (String × List String))
    (s : List String) : s ⊆ addChildrenOfConnectable ctp s := by
  unfold addChildrenOfConnectable
  refine subset_foldl _ ctp s ?_
  intro acc e
  dsimp only
  split
  · exact subset_insSet _ _
  · exact fun _ h => h

theorem subset_addSpousesSideways (fams : List (String × FamilyEntry))
    (s : List String) : s ⊆ addSpousesSideways fams s := by
  unfold addSpousesSideways
  refine subset_foldl _ fams s ?_
  intro acc e
  dsimp only
  split
  · exact subset_foldl_insSet _ _
  · exact fun _ h => h

theorem subset_connectPass (ctp : List (String × List String))
    (fams : List (String × FamilyEntry)) (s : List String) :
    s ⊆ connectPass ctp fams s :=
  fun _ ha => subset_addSpousesSideways fams _
    (subset_addChildrenOfConnectable ctp s ha)

theorem subset_connectLoop (ctp : List (String × List String))
    (fams : List (String × FamilyEntry)) :
    ∀ (fuel : Nat) (s : List String), s ⊆ connectLoop ctp fams fuel s := by
  intro fuel
  induction fuel with
  | zero => exact fun s a ha => ha
  | succ fuel ih =>
    intro s
    unfold connectLoop
    show s ⊆ (if ((connectPass ctp fams s).length == s.length) = true then
      connectPass ctp fams s else connectLoop ctp fams fuel (connectPass ctp fams s))
    split
    · exact subset_connectPass ctp fams s
    · exact fun a ha => ih _ (subset_connectPass ctp fams s ha)

theorem allJustified_addSpousesOfConnectable {seeds : List String}
    {ctp : List (String × List String)} {fams : List (String × FamilyEntry)}
    {s : List String} (hs : allJustified seeds ctp fams s) :
    allJustified seeds ctp fams (addSpousesOfConnectable fams s) := by
  unfold addSpousesOfConnectable
  refine foldl_inv (allJustified seeds ctp fams) _ fams s hs ?_
  intro acc e he hacc
  dsimp only
  split
  · rename_i htrig
    intro q hq
    rcases mem_foldl_insSet hq with hq1 | hq1
    · exact connectJustified_mono (subset_foldl_insSet _ _) (hacc q hq1)
    · by_cases hqa : q ∈ acc
      · exact connectJustified_mono (subset_foldl_insSet _ _) (hacc q hqa)
      · rcases List.any_eq_true.mp htrig with ⟨x, hx, hxs⟩
        have hxacc : x ∈ acc := (contains_iff _ _).mp hxs
        refine Or.inr (Or.inl ⟨e, he, hq1, Or.inl ⟨x, hx, ?_,
          subset_foldl_insSet _ _ hxacc⟩⟩)
        intro hxq; exact hqa (hxq ▸ hxacc)
  · exact hacc

theorem allJustified_addChildrenOfConnectable {seeds : List String}
    {ctp : List (String × List String)} {fams : List (String × FamilyEntry)}
    {s : List String} (hs : allJustified seeds ctp fams s) :
    allJustified seeds ctp fams (addChildrenOfConnectable ctp s) := by
  unfold addChildrenOfConnectable
  refine foldl_inv (allJustified seeds ctp fams) _ ctp s hs ?_
  intro acc e he hacc
  dsimp only
  split
  · rename_i htrig
    intro q hq
    rcases mem_insSet hq with hq1 | hq1
    · exact connectJustified_mono (subset_insSet _ _) (hacc q hq1)
    · by_cases hqa : q ∈ acc
      · exact connectJustified_mono (subset_insSet _ _) (hacc q hqa)
      · rcases List.any_eq_true.mp htrig with ⟨p, hp, hps⟩
        have hpacc : p ∈ acc := (contains_iff _ _).mp hps
        refine Or.inr (Or.inr ⟨e, he, hq1.symm, p, hp, ?_,
          subset_insSet _ _ hpacc⟩)
        intro hpq; exact hqa (hpq ▸ hpacc)
  · exact hacc

theorem allJustified_addSpousesSideways {seeds : List String}
    {ctp : List (String × List String)} {fams : List (String × FamilyEntry)}
    {s : List String} (hs : allJustified seeds ctp fams s) :
    allJustified seeds ctp fams (addSpousesSideways fams s) := by
  unfold addSpousesSideways
  refine foldl_inv (allJustified seeds ctp fams) _ fams s hs ?_
  intro acc e he hacc
  dsimp only
  split
  · rename_i htrig
    intro q hq
    rcases mem_foldl_insSet hq with hq1 | hq1
    · exact connectJustified_mono (subset_foldl_insSet _ _) (hacc q hq1)
    · by_cases hqa : q ∈ acc
      · exact connectJustified_mono (subset_foldl_insSet _ _) (hacc q hqa)
      · rcases Bool.or_eq_true _ _ |>.mp htrig with htr | htr
        · rcases List.any_eq_true.mp htr with ⟨x, hx, hxs⟩
          have hxacc : x ∈ acc := (contains_iff _ _).mp hxs
          refine Or.inr (Or.inl ⟨e, he, hq1, Or.inl ⟨x, hx, ?_,
            subset_foldl_insSet _ _ hxacc⟩⟩)
          intro hxq; exact hqa (hxq ▸ hxacc)
        · rcases List.any_eq_true.mp htr with ⟨c, hc, hcs⟩
          have hcacc : c ∈ acc := (contains_iff _ _).mp hcs
          refine Or.inr (Or.inl ⟨e, he, hq1, Or.inr ⟨c, hc, ?_,
            subset_foldl_insSet _ _ hcacc⟩⟩)
          intro hcq; exact hqa (hcq ▸ hcacc)
  · exact hacc

theorem allJustified_connectPass {seeds : List String}
    {ctp : List (String × List String)} {fams : List (String × FamilyEntry)}
    {s : List String} (hs : allJustified seeds ctp fams s) :
    allJustified seeds ctp fams (connectPass ctp fams s) :=
  allJustified_addSpousesSideways (allJustified_addChildrenOfConnectable hs)

theorem allJustified_connectLoop {seeds : List String}
    {ctp : List (String × List String)} {fams : List (String × FamilyEntry)} :
    ∀ (fuel : Nat) {s : List String}, allJustified seeds ctp fams s →
      allJustified seeds ctp fams (connectLoop ctp fams fuel s) := by
  intro fuel
  induction fuel with
  | zero => exact fun hs => hs
  | succ fuel ih =>
    intro s hs
    unfold connectLoop
    show allJustified seeds ctp fams
      (if ((connectPass ctp fams s).length == s.length) = true then
        connectPass ctp fams s
      else connectLoop ctp fams fuel (connectPass ctp fams s))
    split
    · exact allJustified_connectPass hs
    · exact ih (allJustified_connectPass hs)

/-- C3: with a non-empty seed set the resolver's connectable set only grows —
the seed closure, each fixpoint pass and the whole loop are extensive — and
every member of the final set is justified as a seed, a spouse in a family
with another connectable spouse or child, or a child of a connectable
parent; no one is in the set merely because a child of theirs is
connectable. -/
theorem c3_connectable_monotone_and_justified (pd : EnhancedPedigreeData)
    (opts : GedcomConversionOptions) (seeds : List String)
    (hseeds : opts.ancestryPersonIds = some seeds)
    (hne : seeds.length > 0) :
    (∀ s, s ⊆ connectPass (childToParentsOf pd) (familiesOf pd) s) ∧
    (∀ fuel s, s ⊆ connectLoop (childToParentsOf pd) (familiesOf pd) fuel s) ∧
    (∀ q ∈ connectableOf pd opts,
      connectJustified seeds (childToParentsOf pd) (familiesOf pd)
        (connectableOf pd opts) q) := by
  refine ⟨subset_connectPass _ _, subset_connectLoop _ _, ?_⟩
  have hrw : connectableOf pd opts =
      connectLoop (childToParentsOf pd) (familiesOf pd)
        (connectFuel (childToParentsOf pd) (familiesOf pd))
        (addSpousesOfConnectable (familiesOf pd)
          (seeds.foldl insSet [])) := by
    unfold connectableOf connectablePersons
    rw [hseeds]
    simp only [hne, if_true]
  rw [hrw]
  have hseed0 : allJustified seeds (childToParentsOf pd) (familiesOf pd)
      (seeds.foldl insSet []) := by
    intro q hq
    rcases mem_foldl_insSet hq with h | h
    · cases h
    · exact Or.inl h
  exact allJustified_connectLoop _
    (allJustified_addSpousesOfConnectable hseed0)

def c3Rel : Relationship :=
  { id := "r2"
    type := some "http://gedcomx.org/Couple"
    person1 := some { resourceId := some "A" }
    person2 := some { resourceId := some "B" } }

def c3Pd : EnhancedPedigreeData :=
  { persons := some [{ id := "A" }, { id := "B" }]
    relationships := some [c3Rel] }

def c3Opts : GedcomConversionOptions := { ancestryPersonIds := some ["A"] }

/-- Witness for C3 at the concrete input `c3Pd` with seed list `["A"]`. -/
theorem c3_connectable_monotone_and_justified_witness :
    c3Opts.ancestryPersonIds = some ["A"] ∧ (["A"] : List String).length > 0 ∧
    ((∀ s, s ⊆ connectPass (childToParentsOf c3Pd) (familiesOf c3Pd) s) ∧
    (∀ fuel s, s ⊆ connectLoop (childToParentsOf c3Pd) (familiesOf c3Pd) fuel s) ∧
    (∀ q ∈ connectableOf c3Pd c3Opts,
      connectJustified ["A"] (childToParentsOf c3Pd) (familiesOf c3Pd)
        (connectableOf c3Pd c3Opts) q)) :=
  ⟨rfl, by decide,
    c3_connectable_monotone_and_justified c3Pd c3Opts ["A"] rfl (by decide)⟩

/-! ## Claim C6: composite splitting and merge-by-identifier -/

theorem subset_pushIfNewRel (acc : List Relationship) (rel : Relationship) :
    acc ⊆ pushIfNewRel acc rel := by
  unfold pushIfNewRel
  split
  · exact fun _ h => h
  · exact fun a h => List.mem_append_left _ h

theorem pushIfNewRel_has_id (acc : List Relationship) (rel : Relationship) :
    ∃ r ∈ pushIfNewRel acc rel, r.id = rel.id := by
  unfold pushIfNewRel
  split
  · rename_i h
    rcases List.any_eq_true.mp h with ⟨r, hr, hrid⟩
    exact ⟨r, hr, by simpa using hrid⟩
  · exact ⟨rel, List.mem_append_right _ (List.mem_singleton.mpr rfl), rfl⟩

theorem subset_capStep (acc : List Relationship) (capRel : CapRel) :
    acc ⊆ capStep acc capRel := by
  unfold capStep
  cases capRel.parent1 <;> cases capRel.child <;> cases capRel.parent2 <;>
    dsimp only <;>
    first
      | exact fun _ h => h
      | exact fun a h => subset_pushIfNewRel _ _ h
      | exact fun a h => subset_pushIfNewRel _ _ (subset_pushIfNewRel _ _ h)

theorem subset_personRelStep (acc : List Relationship)
    (person : EnhancedPerson) : acc ⊆ personRelStep acc person := by
  unfold personRelStep
  have h1 : acc ⊆ (match person.fullDetails.bind (·.relationships) with
      | none => acc
      | some personRelationships =>
        personRelationships.foldl pushIfNewRel acc) := by
    cases person.fullDetails.bind (·.relationships) with
    | none => exact fun _ h => h
    | some prels => exact subset_foldl _ prels acc subset_pushIfNewRel
  refine List.Subset.trans h1 ?_
  cases person.fullDetails.bind (·.childAndParentsRelationships) with
  | none => exact fun _ h => h
  | some caps => exact subset_foldl _ caps _ subset_capStep

/-- Where a merged relationship beyond the copied pedigree list comes from:
it is a detail relationship of some person, or a `-p1` / `-p2` edge split
off a composite child-and-parents record of some person. -/
def fromDetails (persons : List EnhancedPerson) (rel : Relationship) : Prop :=
  (∃ person ∈ persons, ∃ prels,
    person.fullDetails.bind (·.relationships) = some prels ∧ rel ∈ prels) ∨
  (∃ person ∈ persons, ∃ caps,
    person.fullDetails.bind (·.childAndParentsRelationships) = some caps ∧
    ∃ capRel ∈ caps,
      (∃ pp1 cc, capRel.parent1 = some pp1 ∧ capRel.child = some cc ∧
        rel = capEdgeP1 capRel pp1 cc) ∨
      (∃ pp2 cc, capRel.parent2 = some pp2 ∧ capRel.child = some cc ∧
        rel = capEdgeP2 capRel pp2 cc))

/-- Invariant of the aggregation: the accumulator is the untouched pedigree
list followed by id-deduplicated detail-sourced additions. -/
def mergeInv (persons : List EnhancedPerson) (topRels : List Relationship)
    (acc : List Relationship) : Prop :=
  ∃ extra, acc = topRels ++ extra ∧ ((extra.map (·.id)).Nodup) ∧
    ∀ r ∈ extra, r.id ∉ topRels.map (·.id) ∧ fromDetails persons r

theorem pushIfNewRel_inv {persons : List EnhancedPerson}
    {topRels acc : List Relationship} {cand : Relationship}
    (hP : mergeInv persons topRels acc) (hc : fromDetails persons cand) :
    mergeInv persons topRels (pushIfNewRel acc cand) := by
  rcases hP with ⟨extra, rfl, hnd, hall⟩
  unfold pushIfNewRel
  split
  · exact ⟨extra, rfl, hnd, hall⟩
  · rename_i h
    have hfresh : ∀ r ∈ topRels ++ extra, ¬(r.id = cand.id) := by
      intro r hr
      have hfb : ((topRels ++ extra).any fun r => r.id == cand.id) = false := by
        simpa using h
      have := List.any_eq_false.mp hfb r hr
      simpa using this
    refine ⟨extra ++ [cand], by rw [List.append_assoc], ?_, ?_⟩
    · simp only [List.map_append, List.map_cons, List.map_nil]
      rw [List.nodup_append]
      refine ⟨hnd, List.nodup_singleton _, ?_⟩
      intro a ha hb
      rcases List.mem_map.mp ha with ⟨r, hr, hrid⟩
      have := hfresh r (List.mem_append_right _ hr)
      simp only [List.mem_singleton] at hb
      rw [hb] at hrid
      exact this hrid
    · intro r hr
      rcases List.mem_append.mp hr with hr1 | hr1
      · exact hall r hr1
      · rw [List.mem_singleton.mp hr1]
        refine ⟨?_, hc⟩
        intro hmem
        rcases List.mem_map.mp hmem with ⟨r', hr', hrid⟩
        exact hfresh r' (List.mem_append_left _ hr') hrid

theorem capStep_inv {persons : List EnhancedPerson}
    {topRels acc : List Relationship} {x : EnhancedPerson} {caps : List CapRel}
    {capRel : CapRel} (hP : mergeInv persons topRels acc) (hx : x ∈ persons)
    (hcaps : x.fullDetails.bind (·.childAndParentsRelationships) = some caps)
    (hcap : capRel ∈ caps) :
    mergeInv persons topRels (capStep acc capRel) := by
  unfold capStep
  have h1 : ∀ {acc2 : List Relationship}, mergeInv persons topRels acc2 →
      mergeInv persons topRels
        (match capRel.parent2, capRel.child with
         | some pp2, some cc => pushIfNewRel acc2 (capEdgeP2 capRel pp2 cc)
         | _, _ => acc2) := by
    intro acc2 hP2
    cases h2 : capRel.parent2 with
    | none =>
      cases capRel.child <;> exact hP2
    | some pp2 =>
      cases hcc : capRel.child with
      | none => exact hP2
      | some cc =>
        refine pushIfNewRel_inv hP2 (Or.inr ⟨x, hx, caps, hcaps, capRel, hcap,
          Or.inr ⟨pp2, cc, h2, hcc, rfl⟩⟩)
  refine h1 ?_
  cases hp1 : capRel.parent1 with
  | none => cases capRel.child <;> exact hP
  | some pp1 =>
    cases hcc : capRel.child with
    | none => exact hP
    | some cc =>
      exact pushIfNewRel_inv hP (Or.inr ⟨x, hx, caps, hcaps, capRel, hcap,
        Or.inl ⟨pp1, cc, hp1, hcc, rfl⟩⟩)

theorem personRelStep_inv {persons : List EnhancedPerson}
    {topRels acc : List Relationship} {x : EnhancedPerson}
    (hP : mergeInv persons topRels acc) (hx : x ∈ persons) :
    mergeInv persons topRels (personRelStep acc x) := by
  unfold personRelStep
  have h1 : mergeInv persons topRels
      (match x.fullDetails.bind (·.relationships) with
       | none => acc
       | some personRelationships =>
         personRelationships.foldl pushIfNewRel acc) := by
    cases hrels : x.fullDetails.bind (·.relationships) with
    | none => exact hP
    | some prels =>
      refine foldl_inv (mergeInv persons topRels) _ prels acc hP ?_
      intro acc2 rel hrel hP2
      exact pushIfNewRel_inv hP2 (Or.inl ⟨x, hx, prels, hrels, hrel⟩)
  cases hcaps : x.fullDetails.bind (·.childAndParentsRelationships) with
  | none => exact h1
  | some caps =>
    refine foldl_inv (mergeInv persons topRels) _ caps _ h1 ?_
    intro acc2 capRel hcap hP2
    exact capStep_inv hP2 hx hcaps hcap

theorem capStep_p1_present {acc : List Relationship} {capRel : CapRel}
    {pp1 cc : ResourceInner} (h1 : capRel.parent1 = some pp1)
    (hcc : capRel.child = some cc) :
    ∃ r ∈ capStep acc capRel, r.id = capRel.id ++ "-p1" := by
  unfold capStep
  rw [h1, hcc]
  rcases pushIfNewRel_has_id acc (capEdgeP1 capRel pp1 cc) with ⟨r, hr, hrid⟩
  cases h2 : capRel.parent2 with
  | none => exact ⟨r, hr, hrid⟩
  | some pp2 => exact ⟨r, subset_pushIfNewRel _ _ hr, hrid⟩

theorem capStep_p2_present {acc : List Relationship} {capRel : CapRel}
    {pp2 cc : ResourceInner} (h2 : capRel.parent2 = some pp2)
    (hcc : capRel.child = some cc) :
    ∃ r ∈ capStep acc capRel, r.id = capRel.id ++ "-p2" := by
  unfold capStep
  rw [h2, hcc]
  rcases pushIfNewRel_has_id
    (match capRel.parent1, some cc with
     | some pp1, some cc2 => pushIfNewRel acc (capEdgeP1 capRel pp1 cc2)
     | _, _ => acc) (capEdgeP2 capRel pp2 cc) with ⟨r, hr, hrid⟩
  exact ⟨r, hr, hrid⟩

/-- C6 (counterexample): it is false that relationships are merged by
identifier across all sources — duplicates inside the top-level pedigree
list itself are copied through unmerged. -/
theorem c6_pedigree_duplicates_not_merged :
    ¬ (∀ (persons : List EnhancedPerson) (topRels : List Relationship),
        ((collectAllRelationships persons topRels).map (·.id)).Nodup) := by
  intro h
  exact absurd (h [] [{ id := "r" }, { id := "r" }]) (by decide)

/-- C6 (amended): the aggregate is the pedigree list copied verbatim
(duplicates included) followed by detail-sourced additions that are
deduplicated by identifier against everything before them, each being a
person's detail relationship or a `-p1`/`-p2` edge split off a composite
record with the stated primary parent, child and co-parent; and for every
composite record of a person, a relationship bearing its `-p1` id (when
parent1 and child are present) and its `-p2` id (when parent2 and child
are present) is in the aggregate. -/
theorem c6_composite_split_and_merge (persons : List EnhancedPerson)
    (topRels : List Relationship) :
    (∃ extra, collectAllRelationships persons topRels = topRels ++ extra ∧
      ((extra.map (·.id)).Nodup) ∧
      ∀ r ∈ extra, r.id ∉ topRels.map (·.id) ∧ fromDetails persons r) ∧
    (∀ x ∈ persons, ∀ caps,
      x.fullDetails.bind (·.childAndParentsRelationships) = some caps →
      ∀ capRel ∈ caps,
        (∀ pp1 cc, capRel.parent1 = some pp1 → capRel.child = some cc →
          ∃ r ∈ collectAllRelationships persons topRels,
            r.id = capRel.id ++ "-p1") ∧
        (∀ pp2 cc, capRel.parent2 = some pp2 → capRel.child = some cc →
          ∃ r ∈ collectAllRelationships persons topRels,
            r.id = capRel.id ++ "-p2")) := by
  constructor
  · unfold collectAllRelationships
    refine foldl_inv (mergeInv persons topRels) _ persons topRels
      ⟨[], by simp, List.nodup_nil, by simp⟩ ?_
    intro acc x hx hP
    exact personRelStep_inv hP hx
  · intro x hx caps hcaps capRel hcap
    rcases List.append_of_mem hx with ⟨l₁, l₂, rfl⟩
    rcases List.append_of_mem hcap with ⟨m₁, m₂, rfl⟩
    have hrw : collectAllRelationships (l₁ ++ x :: l₂) topRels =
        (l₂.foldl personRelStep
          (personRelStep (l₁.foldl personRelStep topRels) x)) := by
      unfold collectAllRelationships
      rw [List.foldl_append]
      rfl
    have hsub2 : ∀ s : List Relationship,
        s ⊆ l₂.foldl personRelStep s :=
      fun s => subset_foldl _ l₂ s subset_personRelStep
    have hstep : ∀ s ⊆ personRelStep (l₁.foldl personRelStep topRels) x,
        s ⊆ collectAllRelationships (l₁ ++ x :: l₂) topRels := by
      intro s hsx
      rw [hrw]
      exact List.Subset.trans hsx (hsub2 _)
    have hcapsplit : personRelStep (l₁.foldl personRelStep topRels) x =
        (m₁ ++ capRel :: m₂).foldl capStep
          (match x.fullDetails.bind (·.relationships) with
           | none => l₁.foldl personRelStep topRels
           | some prels => prels.foldl pushIfNewRel
               (l₁.foldl personRelStep topRels)) := by
      unfold personRelStep
      rw [hcaps]
    have hinner : ∀ s : List Relationship,
        capStep (m₁.foldl capStep s) capRel ⊆
          (m₁ ++ capRel :: m₂).foldl capStep s := by
      intro s
      rw [List.foldl_append, List.foldl_cons]
      exact subset_foldl _ m₂ _ subset_capStep
    constructor
    · intro pp1 cc h1 hc
      rcases @capStep_p1_present (m₁.foldl capStep
        (match x.fullDetails.bind (·.relationships) with
         | none => l₁.foldl personRelStep topRels
         | some prels => prels.foldl pushIfNewRel
             (l₁.foldl personRelStep topRels))) capRel pp1 cc h1 hc
        with ⟨r, hr, hrid⟩
      refine ⟨r, ?_, hrid⟩
      refine hstep _ ?_ hr
      rw [hcapsplit]
      exact hinner _
    · intro pp2 cc h2 hc
      rcases @capStep_p2_present (m₁.foldl capStep
        (match x.fullDetails.bind (·.relationships) with
         | none => l₁.foldl personRelStep topRels
         | some prels => prels.foldl pushIfNewRel
             (l₁.foldl personRelStep topRels))) capRel pp2 cc h2 hc
        with ⟨r, hr, hrid⟩
      refine ⟨r, ?_, hrid⟩
      refine hstep _ ?_ hr
      rw [hcapsplit]
      exact hinner _

/-! ## Claim C8: determinism and the wall-clock DATE line -/

theorem ne_of_data_head {s t : String} {c c' : Char}
    (hs : s.data.head? = some c) (ht : t.data.head? = some c') (h : c ≠ c') :
    s ≠ t := by
  intro he
  rw [he, ht] at hs
  exact h (Option.some.inj hs).symm

theorem indi_target_head (g : String) :
    ("0 " ++ g ++ " INDI").data.head? = some '0' :=
  head0_append ("0 " ++ g) " INDI" '0' (' ' :: g.data)
    (by rw [String.data_append]; rfl)

theorem indi_target_ne_zeroHead {g : String} (hg : g.data.head? = some '@') :
    "0 " ++ g ++ " INDI" ≠ "0 HEAD" := by
  intro h
  have hd := congrArg String.data h
  rw [String.data_append, String.data_append] at hd
  have h2 : g.data ++ " INDI".data = ['H', 'E', 'A', 'D'] := by
    have h3 : '0' :: ' ' :: (g.data ++ " INDI".data) =
        ['0', ' ', 'H', 'E', 'A', 'D'] := by
      simpa using hd
    injection h3 with _ h4
    injection h4 with _ h5
  cases hcg : g.data with
  | nil =>
    rw [hcg] at h2
    simp only [List.nil_append] at h2
    exact absurd (congrArg List.head? h2) (by decide)
  | cons a as =>
    rw [hcg] at hg
    simp only [List.head?_cons, Option.some.injEq] at hg
    rw [hcg, hg] at h2
    simp only [List.cons_append] at h2
    injection h2 with h6
    exact absurd h6 (by decide)

theorem indi_target_safe {g d : String} (hg : g.data.head? = some '@')
    (hd : d.data.head? = some '1') :
    (∀ l ∈ headerPrefixLines, ("0 " ++ g ++ " INDI") ≠ l) ∧
    ("0 " ++ g ++ " INDI") ≠ d := by
  constructor
  · intro l hl
    simp only [headerPrefixLines, List.mem_cons, List.not_mem_nil,
      or_false] at hl
    rcases hl with rfl | rfl | rfl | rfl | rfl
    · exact indi_target_ne_zeroHead hg
    · exact ne_of_data_head (indi_target_head g) rfl (by decide)
    · exact ne_of_data_head (indi_target_head g) rfl (by decide)
    · exact ne_of_data_head (indi_target_head g) rfl (by decide)
    · exact ne_of_data_head (indi_target_head g) rfl (by decide)
  · exact ne_of_data_head (indi_target_head g) hd (by decide)

theorem buildPersonIdMap_values_head (persons : List EnhancedPerson) :
    ∀ p ∈ buildPersonIdMap persons, p.2.data.head? = some '@' := by
  unfold buildPersonIdMap
  refine foldl_inv
    (fun (acc : List (String × String) × Nat) =>
      ∀ p ∈ acc.1, p.2.data.head? = some '@')
    _ persons ([], 0) (by intro p hp; cases hp) ?_
  intro acc x hx hacc
  intro p hp
  rcases mapSet_mem hp with h | h
  · exact hacc p h
  · rw [h]
    exact head0_append ("@I" ++ toString (acc.2 + 1)) "@" '@'
      ('I' :: (toString (acc.2 + 1)).data) (by rw [String.data_append]; rfl)

theorem spliceAfterIndi_factor (target newLine : String) (skip : Bool) :
    ∀ (pre : List String) (d : String) (suf : List String),
      (∀ l ∈ pre, target ≠ l) → target ≠ d →
      spliceAfterIndi target newLine skip (pre ++ d :: suf) =
        pre ++ d :: spliceAfterIndi target newLine skip suf := by
  intro pre
  induction pre with
  | nil =>
    intro d suf _ hd
    simp only [List.nil_append]
    have hne : (d == target) = false := by
      simp only [beq_eq_false_iff_ne]
      exact fun he => hd he.symm
    conv_lhs => rw [spliceAfterIndi]
    rw [hne]
    simp
  | cons p ps ih =>
    intro d suf hpre hd
    simp only [List.cons_append]
    have hne : (p == target) = false := by
      simp only [beq_eq_false_iff_ne]
      exact fun he => hpre p (List.mem_cons_self _ _) he.symm
    conv_lhs => rw [spliceAfterIndi]
    rw [hne]
    simp only [Bool.false_eq_true, if_false]
    rw [ih d suf (fun l hl => hpre l (List.mem_cons_of_mem _ hl)) hd]

theorem famcStep_factor {pim fim : List (String × String)} {d : String}
    (hpim : ∀ p ∈ pim, p.2.data.head? = some '@')
    (hd : d.data.head? = some '1') (suf : List String)
    (e : String × List String) :
    famcStep pim fim (headerPrefixLines ++ d :: suf) e =
      headerPrefixLines ++ d :: famcStep pim fim suf e := by
  unfold famcStep
  cases hget : mapGet? pim e.1 with
  | none => rfl
  | some gid =>
    have hg : gid.data.head? = some '@' := hpim _ (mapGet?_mem hget)
    cases hfid : (match e.2 with
      | p0 :: p1 :: _ => mapGet? fim (sortedPairKey p0 p1)
      | [p0] => mapGet? fim ("single-" ++ p0)
      | [] => none : Option String) with
    | none => rfl
    | some fid =>
      exact spliceAfterIndi_factor _ _ _ headerPrefixLines d suf
        (indi_target_safe hg hd).1 (indi_target_safe hg hd).2

theorem applyFamcSplices_factor {pim fim : List (String × String)} {d : String}
    (hpim : ∀ p ∈ pim, p.2.data.head? = some '@')
    (hd : d.data.head? = some '1') :
    ∀ (ctp : List (String × List String)) (suf : List String),
      applyFamcSplices ctp pim fim (headerPrefixLines ++ d :: suf) =
        headerPrefixLines ++ d :: applyFamcSplices ctp pim fim suf := by
  intro ctp
  induction ctp with
  | nil => intro suf; rfl
  | cons e rest ih =>
    intro suf
    show (rest.foldl (famcStep pim fim)
        (famcStep pim fim (headerPrefixLines ++ d :: suf) e)) =
      headerPrefixLines ++ d :: rest.foldl (famcStep pim fim)
        (famcStep pim fim suf e)
    rw [famcStep_factor hpim hd suf e]
    exact ih (famcStep pim fim suf e)

theorem famsSpouseStep_factor {pim : List (String × String)}
    {famId d : String}
    (hpim : ∀ p ∈ pim, p.2.data.head? = some '@')
    (hd : d.data.head? = some '1') (suf : List String) (spouseId : String) :
    famsSpouseStep pim famId (headerPrefixLines ++ d :: suf) spouseId =
      headerPrefixLines ++ d :: famsSpouseStep pim famId suf spouseId := by
  unfold famsSpouseStep
  cases hget : mapGet? pim spouseId with
  | none => rfl
  | some gid =>
    have hg : gid.data.head? = some '@' := hpim _ (mapGet?_mem hget)
    exact spliceAfterIndi_factor _ _ _ headerPrefixLines d suf
      (indi_target_safe hg hd).1 (indi_target_safe hg hd).2

theorem famsStep_factor {pim fim : List (String × String)} {d : String}
    (hpim : ∀ p ∈ pim, p.2.data.head? = some '@')
    (hd : d.data.head? = some '1') (suf : List String)
    (e : String × FamilyEntry) :
    famsStep pim fim (headerPrefixLines ++ d :: suf) e =
      headerPrefixLines ++ d :: famsStep pim fim suf e := by
  unfold famsStep
  cases hget : mapGet? fim e.1 with
  | none => rfl
  | some famId =>
    have hin : ∀ (sps : List String) (suf2 : List String),
        sps.foldl (famsSpouseStep pim famId)
            (headerPrefixLines ++ d :: suf2) =
          headerPrefixLines ++ d ::
            sps.foldl (famsSpouseStep pim famId) suf2 := by
      intro sps
      induction sps with
      | nil => intro suf2; rfl
      | cons sp rest ih =>
        intro suf2
        simp only [List.foldl_cons]
        rw [famsSpouseStep_factor hpim hd suf2 sp]
        exact ih (famsSpouseStep pim famId suf2 sp)
    exact hin e.2.spouses suf

theorem applyFamsSplices_factor {pim fim : List (String × String)} {d : String}
    (hpim : ∀ p ∈ pim, p.2.data.head? = some '@')
    (hd : d.data.head? = some '1') :
    ∀ (fams : List (String × FamilyEntry)) (suf : List String),
      applyFamsSplices fams pim fim (headerPrefixLines ++ d :: suf) =
        headerPrefixLines ++ d :: applyFamsSplices fams pim fim suf := by
  intro fams
  induction fams with
  | nil => intro suf; rfl
  | cons e rest ih =>
    intro suf
    show (rest.foldl (famsStep pim fim)
        (famsStep pim fim (headerPrefixLines ++ d :: suf) e)) =
      headerPrefixLines ++ d :: rest.foldl (famsStep pim fim)
        (famsStep pim fim suf e)
    rw [famsStep_factor hpim hd suf e]
    exact ih (famsStep pim fim suf e)

/-- The body of `convertLines` after the header and the DATE line. -/
def convertTail (pd : EnhancedPedigreeData)
    (opts : GedcomConversionOptions) : List String :=
  headerSuffixLines (opts.treeName.getD "FamilySearch Import") ++
  (sourceRecordLines (sourceMapOf pd) ++
  ((indiRecordsOf pd opts).foldl (fun acc r => acc ++ r.2) [] ++
  (famRecordsOf pd opts).foldl (fun acc r => acc ++ famRecordLines r) []))

theorem convertLines_factor (pd : EnhancedPedigreeData)
    (opts : GedcomConversionOptions) (now0 : JsDate) :
    convertLines pd opts now0 =
      headerPrefixLines ++ ("1 DATE " ++ formatDateForGedcom now0) ::
        (applyFamsSplices (familiesOf pd) (personIdMapOf pd)
          (familyIdMapOf pd opts)
          (applyFamcSplices (childToParentsOf pd) (personIdMapOf pd)
            (familyIdMapOf pd opts) (convertTail pd opts)) ++ ["0 TRLR"]) := by
  have hpim : ∀ p ∈ personIdMapOf pd, p.2.data.head? = some '@' :=
    buildPersonIdMap_values_head _
  have hd : ("1 DATE " ++ formatDateForGedcom now0).data.head? = some '1' :=
    head0_append "1 DATE " _ '1' (' ' :: 'D' :: 'A' :: 'T' :: 'E' :: ' ' :: [])
      rfl
  unfold convertLines
  dsimp only
  have hbase : headerPrefixLines ++
      ["1 DATE " ++ formatDateForGedcom now0] ++
      headerSuffixLines (opts.treeName.getD "FamilySearch Import") ++
      sourceRecordLines (sourceMapOf pd) ++
      (indiRecordsOf pd opts).foldl (fun acc r => acc ++ r.2) [] ++
      (famRecordsOf pd opts).foldl (fun acc r => acc ++ famRecordLines r) [] =
      headerPrefixLines ++ ("1 DATE " ++ formatDateForGedcom now0) ::
        convertTail pd opts := by
    unfold convertTail
    simp [List.append_assoc]
  rw [hbase]
  rw [applyFamcSplices_factor hpim hd, applyFamsSplices_factor hpim hd]
  simp [List.append_assoc]

theorem eraseIdx5_header (d : String) (xs : List String) :
    (headerPrefixLines ++ d :: xs).eraseIdx 5 = headerPrefixLines ++ xs := by
  simp [headerPrefixLines, List.eraseIdx]

/-- C8 (counterexample): the output is not a function of the input data and
options alone — the header DATE line reads the wall clock, so two
invocations at different times differ. -/
theorem c8_output_depends_on_clock :
    ¬ (∀ (pd : Option EnhancedPedigreeData)
        (opts : GedcomConversionOptions) (now now' : JsDate),
        convertToGedcom pd opts now = convertToGedcom pd opts now') := by
  intro h
  have h2 := congrArg
    (fun x : Except String String =>
      match x with
      | Except.ok s => s
      | Except.error e => e)
    (h (some { persons := some [] }) {} refDate ⟨2, ⟨0, by decide⟩, 2021⟩)
  exact absurd h2 (by decide)

/-- C8 (amended): apart from the DATE header line (index 5), the emitted
line list is a function of the input data and options alone: for any two
invocation times the outputs agree once that line is removed, and they
have the same length. -/
theorem c8_deterministic_modulo_date (pd : EnhancedPedigreeData)
    (opts : GedcomConversionOptions) (now now' : JsDate) :
    (convertLines pd opts now).eraseIdx 5 =
      (convertLines pd opts now').eraseIdx 5 ∧
    (convertLines pd opts now).length = (convertLines pd opts now').length := by
  rw [convertLines_factor pd opts now, convertLines_factor pd opts now']
  constructor
  · rw [eraseIdx5_header, eraseIdx5_header]
  · simp

/-! ## Claim C9: source citations resolve -/

/-- The source-map indices a person's source references resolve to. -/
def citationIndices (sourceMapKeys : List String)
    (personData : PersonData) : List Nat :=
  match personData.sources with
  | some personSources => personSources.foldl (fun acc sourceRef =>
      match sourceRef.descriptionId with
      | some sourceId =>
        if sourceId = "" then acc
        else
          match jsIndexOf sourceMapKeys sourceId with
          | none => acc
          | some sourceIndex => acc ++ [sourceIndex]
      | none => acc) []
  | none => []

theorem jsIndexOf_lt {l : List String} {x : String} :
    ∀ {i : Nat}, jsIndexOf l x = some i → i < l.length := by
  induction l with
  | nil => intro i h; cases h
  | cons a as ih =>
    intro i h
    unfold jsIndexOf at h
    split at h
    · cases h
      exact Nat.succ_pos _
    · cases hj : jsIndexOf as x with
      | none => rw [hj] at h; cases h
      | some j =>
        rw [hj] at h
        simp at h
        have := ih hj
        simp only [List.length_cons]
        omega

theorem citationIndices_lt (keys : List String) (pdata : PersonData) :
    ∀ i ∈ citationIndices keys pdata, i < keys.length := by
  unfold citationIndices
  cases pdata.sources with
  | none => intro i hi; cases hi
  | some srcs =>
    refine foldl_inv (fun acc => ∀ i ∈ acc, i < keys.length) _ srcs []
      (by intro i hi; cases hi) ?_
    intro acc sr hsr hacc
    cases sr.descriptionId with
    | none => exact hacc
    | some sid =>
      dsimp only
      split
      · exact hacc
      · cases hj : jsIndexOf keys sid with
        | none => exact hacc
        | some j =>
          intro i hi
          rcases List.mem_append.mp hi with h | h
          · exact hacc i h
          · rw [List.mem_singleton.mp h]
            exact jsIndexOf_lt hj

theorem citationIndices_mem_sources (keys : List String) (pdata : PersonData) :
    ∀ i ∈ citationIndices keys pdata,
      ("1 SOUR @S" ++ toString (i + 1) ++ "@") ∈ indiSourceLines keys pdata := by
  unfold citationIndices indiSourceLines
  cases pdata.sources with
  | none => intro i hi; cases hi
  | some srcs =>
    suffices h : ∀ (srcs : List SourceReference) (accI : List Nat)
        (accL : List String),
        (∀ i ∈ accI, ("1 SOUR @S" ++ toString (i + 1) ++ "@") ∈ accL) →
        ∀ i ∈ srcs.foldl (fun acc sourceRef =>
            match sourceRef.descriptionId with
            | some sourceId =>
              if sourceId = "" then acc
              else
                match jsIndexOf keys sourceId with
                | none => acc
                | some sourceIndex => acc ++ [sourceIndex]
            | none => acc) accI,
          ("1 SOUR @S" ++ toString (i + 1) ++ "@") ∈
            srcs.foldl (fun acc sourceRef =>
              match sourceRef.descriptionId with
              | some sourceId =>
                if sourceId = "" then acc
                else
                  match jsIndexOf keys sourceId with
                  | none => acc
                  | some sourceIndex =>
                    acc ++ ["1 SOUR @S" ++ toString (sourceIndex + 1) ++ "@"] ++
                    (sourceRef.qualifiers.getD []).foldl (fun acc2 qualifier =>
                      match qualifier.name, qualifier.value with
                      | some qn, some qv =>
                        if qn ≠ "" && qv ≠ "" then
                          acc2 ++ ["2 NOTE " ++ qn ++ ": " ++ qv]
                        else acc2
                      | _, _ => acc2) []
              | none => acc) accL by
      exact h srcs [] [] (by intro i hi; cases hi)
    intro srcs
    induction srcs with
    | nil => exact fun accI accL hinv i hi => hinv i hi
    | cons sr rest ih =>
      intro accI accL hinv
      simp only [List.foldl_cons]
      apply ih
      cases sr.descriptionId with
      | none => exact hinv
      | some sid =>
        dsimp only
        split
        · exact hinv
        · cases hj : jsIndexOf keys sid with
          | none => exact hinv
          | some j =>
            intro i hi
            rcases List.mem_append.mp hi with h | h
            · exact List.mem_append_left _ (List.mem_append_left _ (hinv i h))
            · rw [List.mem_singleton.mp h]
              exact List.mem_append_left _ (List.mem_append_right _
                (List.mem_singleton.mpr rfl))

theorem indiEmit_some_shape {pim : List (String × String)}
    {ptf : List (String × List String)} {ofk : List String}
    {allow links notes : Bool} {env : FsEnvironment} {keys : List String}
    {p : EnhancedPerson} {r : String × List String}
    (h : indiEmit pim ptf ofk allow links notes env keys p = some r) :
    ∃ pre, r.2 = pre ++ indiSourceLines keys (personDataOf p) := by
  cases hget : mapGet? pim p.id with
  | none => simp only [indiEmit, hget] at h; cases h
  | some gid =>
    simp only [indiEmit, hget] at h
    split at h
    · cases h
    · cases h
      exact ⟨_, rfl⟩

theorem mem_foldl_append_lines {records : List (String × List String)}
    {r : String × List String} {x : String} (hr : r ∈ records) (hx : x ∈ r.2) :
    x ∈ records.foldl (fun acc r => acc ++ r.2) [] := by
  have hmono : ∀ (l : List (String × List String)) (acc : List String),
      acc ⊆ l.foldl (fun acc r => acc ++ r.2) acc :=
    fun l acc => subset_foldl _ l acc (fun a b => List.subset_append_left _ _)
  have hgen : ∀ (l : List (String × List String)) (acc : List String),
      r ∈ l → x ∈ l.foldl (fun acc r => acc ++ r.2) acc := by
    intro l
    induction l with
    | nil => intro acc h; cases h
    | cons e rest ih =>
      intro acc h
      rcases List.mem_cons.mp h with rfl | h
      · simp only [List.foldl_cons]
        exact hmono rest _ (List.mem_append_right _ hx)
      · exact ih _ h
  exact hgen records [] hr

theorem srcHeader_mem {sm : List (String × SourceDescription)} {i : Nat}
    (hi : i < sm.length) :
    ("0 " ++ ("@S" ++ toString (i + 1) ++ "@") ++ " SOUR") ∈
      sourceRecordLines sm := by
  have hfil := sourceRecordLines_filter sm
  have hmem : ("0 " ++ ("@S" ++ toString (i + 1) ++ "@") ++ " SOUR") ∈
      (List.range sm.length).map
        (fun i => "0 " ++ ("@S" ++ toString (i + 1) ++ "@") ++ " SOUR") :=
    List.mem_map.mpr ⟨i, List.mem_range.mpr hi, rfl⟩
  rw [← hfil] at hmem
  exact List.mem_of_mem_filter hmem

theorem sublist_insertSkippingFamc (newLine : String) :
    ∀ ls : List String, ls.Sublist (insertSkippingFamc newLine ls) := by
  intro ls
  induction ls with
  | nil => exact List.nil_sublist _
  | cons l ls ih =>
    unfold insertSkippingFamc
    split
    · exact ih.cons₂ l
    · exact (List.Sublist.refl _).cons _

theorem sublist_spliceAfterIndi (target newLine : String) (skip : Bool) :
    ∀ ls : List String, ls.Sublist (spliceAfterIndi target newLine skip ls) := by
  intro ls
  induction ls with
  | nil => exact List.nil_sublist _
  | cons l ls ih =>
    unfold spliceAfterIndi
    split
    · split
      · exact (sublist_insertSkippingFamc newLine ls).cons₂ l
      · exact ((List.Sublist.refl ls).cons _).cons₂ l
    · exact ih.cons₂ l

theorem sublist_famcStep (pim fim : List (String × String))
    (lines : List String) (e : String × List String) :
    lines.Sublist (famcStep pim fim lines e) := by
  unfold famcStep
  cases mapGet? pim e.1 with
  | none => exact List.Sublist.refl _
  | some gid =>
    cases (match e.2 with
      | p0 :: p1 :: _ => mapGet? fim (sortedPairKey p0 p1)
      | [p0] => mapGet? fim ("single-" ++ p0)
      | [] => none : Option String) with
    | none => exact List.Sublist.refl _
    | some fid => exact sublist_spliceAfterIndi _ _ _ lines

theorem sublist_famsStep (pim fim : List (String × String))
    (lines : List String) (e : String × FamilyEntry) :
    lines.Sublist (famsStep pim fim lines e) := by
  unfold famsStep
  cases mapGet? fim e.1 with
  | none => exact List.Sublist.refl _
  | some famId =>
    have h : ∀ (sps : List String) (acc : List String),
        acc.Sublist (sps.foldl (famsSpouseStep pim famId) acc) := by
      intro sps
      induction sps with
      | nil => exact fun acc => List.Sublist.refl _
      | cons sp rest ih =>
        intro acc
        simp only [List.foldl_cons]
        refine List.Sublist.trans ?_ (ih _)
        unfold famsSpouseStep
        cases mapGet? pim sp with
        | none => exact List.Sublist.refl _
        | some gid => exact sublist_spliceAfterIndi _ _ _ acc
    exact h e.2.spouses lines

theorem sublist_applyFamcSplices (ctp : List (String × List String))
    (pim fim : List (String × String)) (lines : List String) :
    lines.Sublist (applyFamcSplices ctp pim fim lines) := by
  unfold applyFamcSplices
  have h : ∀ (l : List (String × List String)) (acc : List String),
      acc.Sublist (l.foldl (famcStep pim fim) acc) := by
    intro l
    induction l with
    | nil => exact fun acc => List.Sublist.refl _
    | cons e rest ih =>
      intro acc
      simp only [List.foldl_cons]
      exact List.Sublist.trans (sublist_famcStep pim fim acc e) (ih _)
  exact h ctp lines

theorem sublist_applyFamsSplices (fams : List (String × FamilyEntry))
    (pim fim : List (String × String)) (lines : List String) :
    lines.Sublist (applyFamsSplices fams pim fim lines) := by
  unfold applyFamsSplices
  have h : ∀ (l : List (String × FamilyEntry)) (acc : List String),
      acc.Sublist (l.foldl (famsStep pim fim) acc) := by
    intro l
    induction l with
    | nil => exact fun acc => List.Sublist.refl _
    | cons e rest ih =>
      intro acc
      simp only [List.foldl_cons]
      exact List.Sublist.trans (sublist_famsStep pim fim acc e) (ih _)
  exact h fams lines

/-- C9: every source citation of an emitted INDI record resolves: its index
`n = i + 1` satisfies `1 ≤ n ≤ |source map|`, the citation line sits under
the record, and the source record `0 @Sn@ SOUR` appears before it in the
emitted document. -/
theorem c9_citations_resolve (pd : EnhancedPedigreeData)
    (opts : GedcomConversionOptions) (now : JsDate)
    (person : EnhancedPerson) (hp : person ∈ personsOf pd)
    (r : String × List String)
    (hr : indiEmit (personIdMapOf pd) (orphanInfoOf pd opts).2
      (orphanInfoOf pd opts).1 (opts.allowOrphanFamilies == some true)
      (opts.includeLinks.getD true) (opts.includeNotes.getD true)
      (opts.environment.getD FsEnvironment.production)
      ((sourceMapOf pd).map (·.1)) person = some r)
    (i : Nat)
    (hi : i ∈ citationIndices ((sourceMapOf pd).map (·.1))
      (personDataOf person)) :
    1 ≤ i + 1 ∧ i + 1 ≤ (sourceMapOf pd).length ∧
    r ∈ indiRecordsOf pd opts ∧
    ("1 SOUR @S" ++ toString (i + 1) ++ "@") ∈ r.2 ∧
    ["0 " ++ ("@S" ++ toString (i + 1) ++ "@") ++ " SOUR",
     "1 SOUR @S" ++ toString (i + 1) ++ "@"].Sublist
      (convertLines pd opts now) := by
  have hlt : i < (sourceMapOf pd).length := by
    have := citationIndices_lt _ _ i hi
    rwa [List.length_map] at this
  have hrmem : r ∈ indiRecordsOf pd opts := by
    rw [indiRecordsOf]
    exact List.mem_filterMap.mpr ⟨person, hp, hr⟩
  rcases indiEmit_some_shape hr with ⟨pre, hpre⟩
  have hcit : ("1 SOUR @S" ++ toString (i + 1) ++ "@") ∈ r.2 := by
    rw [hpre]
    exact List.mem_append_right _ (citationIndices_mem_sources _ _ i hi)
  refine ⟨by omega, by omega, hrmem, hcit, ?_⟩
  have hsrc := @srcHeader_mem (sourceMapOf pd) i hlt
  have hcitIndi : ("1 SOUR @S" ++ toString (i + 1) ++ "@") ∈
      (indiRecordsOf pd opts).foldl (fun acc r => acc ++ r.2) [] :=
    mem_foldl_append_lines hrmem hcit
  have hpair : ["0 " ++ ("@S" ++ toString (i + 1) ++ "@") ++ " SOUR",
      "1 SOUR @S" ++ toString (i + 1) ++ "@"].Sublist
      (sourceRecordLines (sourceMapOf pd) ++
        ((indiRecordsOf pd opts).foldl (fun acc r => acc ++ r.2) [] ++
         (famRecordsOf pd opts).foldl
           (fun acc r => acc ++ famRecordLines r) [])) := by
    have h1 : ["0 " ++ ("@S" ++ toString (i + 1) ++ "@") ++ " SOUR"].Sublist
        (sourceRecordLines (sourceMapOf pd)) :=
      List.singleton_sublist.mpr hsrc
    have h2 : ["1 SOUR @S" ++ toString (i + 1) ++ "@"].Sublist
        ((indiRecordsOf pd opts).foldl (fun acc r => acc ++ r.2) [] ++
         (famRecordsOf pd opts).foldl
           (fun acc r => acc ++ famRecordLines r) []) :=
      List.singleton_sublist.mpr (List.mem_append_left _ hcitIndi)
    exact List.Sublist.append h1 h2
  have htail : (sourceRecordLines (sourceMapOf pd) ++
      ((indiRecordsOf pd opts).foldl
        (fun acc (r : String × List String) => acc ++ r.2) [] ++
       (famRecordsOf pd opts).foldl
         (fun acc r => acc ++ famRecordLines r) [])).Sublist
      (convertTail pd opts) := by
    unfold convertTail
    exact List.sublist_append_right _ _
  rw [convertLines_factor pd opts now]
  have hA := List.Sublist.trans hpair htail
  have hB := hA.trans (sublist_applyFamcSplices (childToParentsOf pd)
    (personIdMapOf pd) (familyIdMapOf pd opts) (convertTail pd opts))
  have hC := hB.trans (sublist_applyFamsSplices (familiesOf pd)
    (personIdMapOf pd) (familyIdMapOf pd opts) _)
  have hD := hC.trans (List.sublist_append_left _ ["0 TRLR"])
  have hE := hD.trans
    ((List.Sublist.refl _).cons ("1 DATE " ++ formatDateForGedcom now))
  exact hE.trans (List.sublist_append_right headerPrefixLines _)



def c9Person : EnhancedPerson :=
  { id := "A"
    sources := some [{ descriptionId := some "s1" }]
    fullDetails := some { sourceDescriptions := some [{ id := some "s1" }] } }

def c9Pd : EnhancedPedigreeData := { persons := some [c9Person] }

def c9Rec : String × List String :=
  ("@I1@", ["0 @I1@ INDI", "1 _FS_ID A",
    "1 _FS_LINK https://www.familysearch.org/tree/person/A", "1 SOUR @S1@"])

/-- Witness for C9 at the concrete input `c9Pd`: one person citing the one
deduplicated source. -/
theorem c9_citations_resolve_witness :
    c9Person ∈ personsOf c9Pd ∧
    indiEmit (personIdMapOf c9Pd) (orphanInfoOf c9Pd {}).2
      (orphanInfoOf c9Pd {}).1
      (({} : GedcomConversionOptions).allowOrphanFamilies == some true)
      (({} : GedcomConversionOptions).includeLinks.getD true)
      (({} : GedcomConversionOptions).includeNotes.getD true)
      (({} : GedcomConversionOptions).environment.getD FsEnvironment.production)
      ((sourceMapOf c9Pd).map (·.1)) c9Person = some c9Rec ∧
    0 ∈ citationIndices ((sourceMapOf c9Pd).map (·.1))
      (personDataOf c9Person) ∧
    (1 ≤ 0 + 1 ∧ 0 + 1 ≤ (sourceMapOf c9Pd).length ∧
     c9Rec ∈ indiRecordsOf c9Pd {} ∧
     ("1 SOUR @S" ++ toString (0 + 1) ++ "@") ∈ c9Rec.2 ∧
     ["0 " ++ ("@S" ++ toString (0 + 1) ++ "@") ++ " SOUR",
      "1 SOUR @S" ++ toString (0 + 1) ++ "@"].Sublist
       (convertLines c9Pd {} refDate)) :=
  ⟨show c9Person ∈ [c9Person] from List.mem_singleton.mpr rfl, by decide,
    by decide,
    c9_citations_resolve c9Pd {} refDate c9Person
      (show c9Person ∈ [c9Person] from List.mem_singleton.mpr rfl) c9Rec
      (by decide) 0 (by decide)⟩

end FsGedcom
